import Mathlib

/-!
# stopinformer: a verification development

Shallow embedding of the three packages of `clarkmcc/stopinformer`:

* `stopinformer`    : one stop / acknowledge handshake (`genericStopInformer`),
* `stopinformers`   : a slice of handles (`genericStopInformers`),
* `stopinformermap` : a name-keyed map of handles (`genericStopInformerMap`).

Go pointers are handles into an explicit heap, channels are identifiers, and
the channel operations a call performs are recorded as a list of `Op`.
The concurrent paths are modelled as step functions on explicit states whose
program counters name the source lines.
-/

namespace stopinformer

/-- Identifier of a Go channel (what `make(chan ...)` returns). -/
abbrev ChanId := Nat

/-- A `*genericStopInformer`, i.e. an `Interface` value: an address in the heap. -/
abbrev Handle := Nat

/-- The struct `genericStopInformer` (stopinformer.go, lines 26-47). -/
structure genericStopInformer where
  internalStopChan : ChanId
  internalNotifyStoppedChan : ChanId
  internalWatchChan : ChanId
  externalWatchStoppedChan : ChanId
  resolveImmediately : Bool
  deriving DecidableEq, Repr, Inhabited

/-- The struct `stopAcker` (stopinformer.go, lines 51-53). -/
structure stopAcker where
  ackChan : ChanId
  deriving DecidableEq, Repr

/-- A value carried by a channel: `struct{}{}`, a `chan struct{}` or a
`*stopAcker`. -/
inductive Val where
  | unit
  | chan (c : ChanId)
  | acker (s : stopAcker)
  deriving DecidableEq, Repr

/-- A blocking channel operation of a goroutine: `c <- v` or `<-c`. -/
inductive ChanOp where
  | send (c : ChanId) (v : Val)
  | recv (c : ChanId)
  deriving DecidableEq, Repr

/-- What the goroutine executing a call does, in program order:
`make(chan, cap)`, a channel operation of its own, or a `go func() { ... }()`
statement whose body is a sequence of channel operations. -/
inductive Op where
  | make (c : ChanId) (cap : Nat)
  | chan (o : ChanOp)
  | go (body : List ChanOp)
  deriving DecidableEq, Repr

/-- The heap: the allocated `genericStopInformer` objects, and the allocation
counters for objects and channels. -/
structure Heap where
  objs : Handle → genericStopInformer
  nextObj : Handle
  nextChan : ChanId

/-- Store `v` at address `p`. -/
def Heap.store (h : Heap) (p : Handle) (v : genericStopInformer) : Heap :=
  { h with objs := fun q => if q = p then v else h.objs q }

/-- An empty heap. -/
def Heap.empty : Heap :=
  { objs := fun _ => default, nextObj := 0, nextChan := 0 }

/-- The constructor `NewStopAcker` (stopinformer.go, lines 56-58). -/
def NewStopAcker (ackChan : ChanId) : stopAcker :=
  { ackChan := ackChan }

/-- The method `stopAcker.Acknowledge` (stopinformer.go, lines 63-65):
`s.ackChan <- struct{}{}`. -/
def stopAcker.Acknowledge (s : stopAcker) : List Op :=
  [Op.chan (ChanOp.send s.ackChan Val.unit)]

/-- The constructor `NewGenericStopInformer` (stopinformer.go, lines 68-86):
four unbuffered channels are made, the relay goroutine
`<-internalStopChan; internalWatchChan <- NewStopAcker(internalNotifyStoppedChan)`
is started, and a new object with `resolveImmediately = false` is returned. -/
def NewGenericStopInformer (h : Heap) : Handle × Heap × List Op :=
  let internalStopChan := h.nextChan
  let internalNotifyStoppedChan := h.nextChan + 1
  let internalWatchChan := h.nextChan + 2
  let externalWatchStoppedChan := h.nextChan + 3
  let g : genericStopInformer :=
    { resolveImmediately := false
      internalStopChan := internalStopChan
      internalNotifyStoppedChan := internalNotifyStoppedChan
      internalWatchChan := internalWatchChan
      externalWatchStoppedChan := externalWatchStoppedChan }
  let p := h.nextObj
  (p,
   { (h.store p g) with nextObj := h.nextObj + 1, nextChan := h.nextChan + 4 },
   [Op.make internalStopChan 0, Op.make internalNotifyStoppedChan 0,
    Op.make internalWatchChan 0, Op.make externalWatchStoppedChan 0,
    Op.go [ChanOp.recv internalStopChan,
           ChanOp.send internalWatchChan (Val.acker (NewStopAcker internalNotifyStoppedChan))]])

/-- The method `genericStopInformer.Stop` (stopinformer.go, lines 89-94).
The result is the heap after the call and the channel operations the calling
goroutine has to execute, in order, for the call to return. -/
def Stop (p : Handle) (h : Heap) : Heap × List Op :=
  let g := h.objs p
  if !g.resolveImmediately then
    (h, [Op.chan (ChanOp.send g.internalStopChan (Val.chan g.internalNotifyStoppedChan)),
         Op.chan (ChanOp.recv g.internalNotifyStoppedChan)])
  else
    (h, [])

/-- The method `genericStopInformer.ResolveImmediately`
(stopinformer.go, lines 99-102): `g.resolveImmediately = true; return g`. -/
def ResolveImmediately (p : Handle) (h : Heap) : Handle × Heap :=
  (p, h.store p { h.objs p with resolveImmediately := true })

/-- The method `genericStopInformer.StopAndNotify`
(stopinformer.go, lines 106-118).  `buffer` is a Go `int`; a negative value
makes `make` fail, so the model takes a natural number.  The goroutine's last
send and the returned channel are the channel made by this call; the Go code
reads the field `g.externalWatchStoppedChan` at those points, which is the
same channel unless another `StopAndNotify` on the same signal has run in
between. -/
def StopAndNotify (p : Handle) (buffer : Nat) (h : Heap) : ChanId × Heap × List Op :=
  let c := h.nextChan
  let h1 : Heap :=
    { (h.store p { h.objs p with externalWatchStoppedChan := c }) with nextChan := h.nextChan + 1 }
  let g := h1.objs p
  if !g.resolveImmediately then
    (g.externalWatchStoppedChan, h1,
      [Op.make c buffer,
       Op.go [ChanOp.send g.internalStopChan (Val.chan g.internalNotifyStoppedChan),
              ChanOp.recv g.internalNotifyStoppedChan,
              ChanOp.send g.externalWatchStoppedChan Val.unit]])
  else
    (g.externalWatchStoppedChan, h1,
      [Op.make c buffer, Op.chan (ChanOp.send g.externalWatchStoppedChan Val.unit)])

/-- The method `genericStopInformer.Watch` (stopinformer.go, lines 122-124). -/
def Watch (p : Handle) (h : Heap) : ChanId × Heap :=
  ((h.objs p).internalWatchChan, h)

/-! ## Running the operations of one goroutine on its own

A channel is described by its capacity, the number of values it holds and the
number of receivers blocked on it.  A send goes through without blocking when
the channel holds fewer values than its capacity or a receiver is waiting; a
receive goes through when a value is buffered. -/

/-- State of one channel. -/
structure ChanState where
  cap : Nat
  len : Nat
  receivers : Nat
  deriving DecidableEq, Repr

/-- The channels known so far, by identifier. -/
abbrev Chans := List (ChanId × ChanState)

/-- Result of running the operations of a call. -/
inductive Outcome where
  | returned (cs : Chans) (spawned : List (List ChanOp))
  | blocked (op : ChanOp) (cs : Chans)
  deriving DecidableEq, Repr

/-- Replace the state of channel `c`. -/
def Chans.put (cs : Chans) (c : ChanId) (s : ChanState) : Chans :=
  (c, s) :: cs.filter (fun e => e.1 != c)

/-- Run the operations of the calling goroutine, no other goroutine taking a
step meanwhile.  The goroutines it starts are collected, not run. -/
def runCaller : List Op → Chans → List (List ChanOp) → Outcome
  | [], cs, sp => Outcome.returned cs sp
  | Op.make c cap :: rest, cs, sp =>
      runCaller rest (Chans.put cs c { cap := cap, len := 0, receivers := 0 }) sp
  | Op.go body :: rest, cs, sp => runCaller rest cs (sp ++ [body])
  | Op.chan (ChanOp.send c v) :: rest, cs, sp =>
      match cs.lookup c with
      | none => Outcome.blocked (ChanOp.send c v) cs
      | some s =>
          if 0 < s.receivers then
            runCaller rest (Chans.put cs c { s with receivers := s.receivers - 1 }) sp
          else if s.len < s.cap then
            runCaller rest (Chans.put cs c { s with len := s.len + 1 }) sp
          else Outcome.blocked (ChanOp.send c v) cs
  | Op.chan (ChanOp.recv c) :: rest, cs, sp =>
      match cs.lookup c with
      | none => Outcome.blocked (ChanOp.recv c) cs
      | some s =>
          if 0 < s.len then
            runCaller rest (Chans.put cs c { s with len := s.len - 1 }) sp
          else Outcome.blocked (ChanOp.recv c) cs

/-- The channels left by a run. -/
def Outcome.chans : Outcome → Chans
  | Outcome.returned cs _ => cs
  | Outcome.blocked _ cs => cs

/-- The goroutine bodies started by a run that returned. -/
def Outcome.spawned : Outcome → List (List ChanOp)
  | Outcome.returned _ sp => sp
  | Outcome.blocked _ _ => []

/-! ## One signal and the goroutines around it

The goroutines that touch one signal are: the goroutine that calls `Stop` or
`StopAndNotify` (the `caller`), the goroutine a `go` statement of the caller
starts (`inner`), the relay started by `NewGenericStopInformer`, and the worker
that watches the signal.  Each is the list of statements it has still to
execute.  A step is taken by one goroutine, or by two that meet on a channel. -/

/-- A statement of the calling goroutine: an operation of the signal package,
or one of the collection statements of the goroutine started by
`StopAllAndNotify` (`g.m.Lock()`, `g.m.Unlock()`, `delete(g.informers, key)`,
`wg.Done()`). -/
inductive Instr where
  | op (o : Op)
  | lock
  | unlock
  | delete
  | wgDone
  deriving DecidableEq, Repr

/-- A worker (stopinformer_test.go, lines 23-44): it waits on `Watch()`, holds
the request it received, and calls `Acknowledge` on it exactly once. -/
inductive Worker where
  | watching (w : ChanId)
  | holding (stop : stopAcker)
  | acknowledging (rest : List Op)
  deriving DecidableEq, Repr

/-- The goroutines around one signal and the channels they use. -/
structure Threads where
  chans : Chans
  caller : Option (List Instr)
  inner : Option (List ChanOp)
  relay : List ChanOp
  worker : Worker
  deriving DecidableEq, Repr

/-- The four goroutines. -/
inductive Role where
  | caller
  | inner
  | relay
  | worker
  deriving DecidableEq, Repr

/-- The channel operation a goroutine is about to execute, if its next
statement is one. -/
def Threads.pending (t : Threads) : Role → Option ChanOp
  | Role.caller =>
      match t.caller with
      | some (Instr.op (Op.chan o) :: _) => some o
      | _ => none
  | Role.inner =>
      match t.inner with
      | some (o :: _) => some o
      | _ => none
  | Role.relay => t.relay.head?
  | Role.worker =>
      match t.worker with
      | Worker.watching w => some (ChanOp.recv w)
      | Worker.acknowledging (Op.chan o :: _) => some o
      | _ => none

/-- The pending channel operation of goroutine `r` has completed; `got` is the
value it received, when it was a receive.  A worker that receives a
`*stopAcker` from `Watch()` now holds it. -/
def Threads.advance (t : Threads) (r : Role) (got : Option Val) : Option Threads :=
  match r with
  | Role.caller => some { t with caller := t.caller.map List.tail }
  | Role.inner => some { t with inner := t.inner.map List.tail }
  | Role.relay => some { t with relay := t.relay.tail }
  | Role.worker =>
      match t.worker, got with
      | Worker.watching _, some (Val.acker s) => some { t with worker := Worker.holding s }
      | Worker.acknowledging ops, _ => some { t with worker := Worker.acknowledging ops.tail }
      | _, _ => none

/-- A step of the goroutines around one signal. -/
inductive LocalAction where
  | sync (sender receiver : Role)
  | bufSend (r : Role)
  | bufRecv (r : Role)
  | callAcknowledge
  | make
  | go
  deriving DecidableEq, Repr

/-- One step.
* `sync s r`: `s` is at a send and `r` at a receive on the same channel, whose
  buffer is empty; the value is handed over and both go on.
* `bufSend r`: `r` is at a send of `struct{}{}` on a channel with room in its
  buffer.  `bufRecv r`: `r` is at a receive on a channel holding a value.  Only
  channels of `struct{}` are ever made with a buffer in this code.
* `callAcknowledge`: the worker calls `Acknowledge` on the request it holds.
* `make`, `go`: the caller executes a `make` or a `go` statement; each call
  modelled has at most one `go` statement.
`none` means the step is not enabled. -/
def Threads.step (t : Threads) : LocalAction → Option Threads
  | LocalAction.sync s r =>
      if s = r then none
      else
        match t.pending s, t.pending r with
        | some (ChanOp.send c v), some (ChanOp.recv c2) =>
            if c = c2 ∧ (t.chans.lookup c).map (fun st => st.len) = some 0 then
              (t.advance s none).bind (fun t1 => t1.advance r (some v))
            else none
        | _, _ => none
  | LocalAction.bufSend r =>
      match t.pending r with
      | some (ChanOp.send c Val.unit) =>
          match t.chans.lookup c with
          | some st =>
              if st.len < st.cap then
                Threads.advance { t with chans := Chans.put t.chans c { st with len := st.len + 1 } }
                  r none
              else none
          | none => none
      | _ => none
  | LocalAction.bufRecv r =>
      match t.pending r with
      | some (ChanOp.recv c) =>
          match t.chans.lookup c with
          | some st =>
              if 0 < st.len then
                Threads.advance { t with chans := Chans.put t.chans c { st with len := st.len - 1 } }
                  r (some Val.unit)
              else none
          | none => none
      | _ => none
  | LocalAction.callAcknowledge =>
      match t.worker with
      | Worker.holding s => some { t with worker := Worker.acknowledging s.Acknowledge }
      | _ => none
  | LocalAction.make =>
      match t.caller with
      | some (Instr.op (Op.make c cap) :: rest) =>
          some { t with caller := some rest,
                        chans := Chans.put t.chans c { cap := cap, len := 0, receivers := 0 } }
      | _ => none
  | LocalAction.go =>
      match t.caller, t.inner with
      | some (Instr.op (Op.go body) :: rest), none =>
          some { t with caller := some rest, inner := some body }
      | _, _ => none

/-- Run a schedule: a list of steps, each of which must be enabled. -/
def Threads.run (t : Threads) : List LocalAction → Option Threads
  | [] => some t
  | a :: rest => (t.step a).bind (fun t1 => t1.run rest)

/-- A new signal (allocated in heap `h` by `NewGenericStopInformer`), its relay
goroutine and a worker blocked on its `Watch()` channel; no caller yet.  The
result is the handle, the heap and the goroutines. -/
def Threads.idle (h : Heap) : Handle × Heap × Threads :=
  let created := NewGenericStopInformer h
  (created.1, created.2.1,
   { chans := (runCaller created.2.2 [] []).chans
     caller := none
     inner := none
     relay := (runCaller created.2.2 [] []).spawned.headD []
     worker := Worker.watching (Watch created.1 created.2.1).1 })

/-- Scenario B: a new armed signal with its relay and a watching worker, and a
controller goroutine that has just called `Stop()` on it. -/
def Threads.stopping (h : Heap) : Threads :=
  { (Threads.idle h).2.2 with
    caller := some ((Stop (Threads.idle h).1 (Threads.idle h).2.1).2.map Instr.op) }

/-- The controller of Scenario B calls `Stop()` on the same signal a second
time, the goroutines being in state `t`: the caller's statements are those of
`Stop` on the heap the first call left. -/
def Threads.stoppingAgain (h : Heap) (t : Threads) : Threads :=
  { t with
    caller := some ((Stop (Threads.idle h).1
      (Stop (Threads.idle h).1 (Threads.idle h).2.1).1).2.map Instr.op) }

/-- The collection statement (`Lock`, `Unlock`, `delete`, `wg.Done`) the caller
is about to execute, if its next statement is one, and the goroutines once it
has been executed.  Its effect on the collection is applied by the caller of
this function. -/
def Threads.stmt (t : Threads) : Option (Instr × Threads) :=
  match t.caller with
  | some (Instr.lock :: rest) => some (Instr.lock, { t with caller := some rest })
  | some (Instr.unlock :: rest) => some (Instr.unlock, { t with caller := some rest })
  | some (Instr.delete :: rest) => some (Instr.delete, { t with caller := some rest })
  | some (Instr.wgDone :: rest) => some (Instr.wgDone, { t with caller := some rest })
  | _ => none

/-- The four unbuffered channels of a signal whose first channel is `n`, as
`NewGenericStopInformer` leaves them. -/
def signalChans (n : ChanId) : Chans :=
  [(n + 3, { cap := 0, len := 0, receivers := 0 }), (n + 2, { cap := 0, len := 0, receivers := 0 }),
   (n + 1, { cap := 0, len := 0, receivers := 0 }), (n, { cap := 0, len := 0, receivers := 0 })]

/-- The states Scenario B passes through, for a signal whose first channel is
`n`: before the request is sent (0), request taken by the relay (1), request
received by the worker (2), `Acknowledge` called (3), `Stop` returned (4). -/
def Threads.stopStage (n : ChanId) : Nat → Threads
  | 0 =>
      { chans := signalChans n
        caller := some [Instr.op (Op.chan (ChanOp.send n (Val.chan (n + 1)))),
                        Instr.op (Op.chan (ChanOp.recv (n + 1)))]
        inner := none
        relay := [ChanOp.recv n, ChanOp.send (n + 2) (Val.acker { ackChan := n + 1 })]
        worker := Worker.watching (n + 2) }
  | 1 =>
      { chans := signalChans n
        caller := some [Instr.op (Op.chan (ChanOp.recv (n + 1)))]
        inner := none
        relay := [ChanOp.send (n + 2) (Val.acker { ackChan := n + 1 })]
        worker := Worker.watching (n + 2) }
  | 2 =>
      { chans := signalChans n
        caller := some [Instr.op (Op.chan (ChanOp.recv (n + 1)))]
        inner := none
        relay := []
        worker := Worker.holding { ackChan := n + 1 } }
  | 3 =>
      { chans := signalChans n
        caller := some [Instr.op (Op.chan (ChanOp.recv (n + 1)))]
        inner := none
        relay := []
        worker := Worker.acknowledging [Op.chan (ChanOp.send (n + 1) Val.unit)] }
  | _ =>
      { chans := signalChans n
        caller := some []
        inner := none
        relay := []
        worker := Worker.acknowledging [] }

/-- The only step enabled at each stage of Scenario B. -/
def stopSchedule : List LocalAction :=
  [LocalAction.sync Role.caller Role.relay, LocalAction.sync Role.relay Role.worker,
   LocalAction.callAcknowledge, LocalAction.sync Role.worker Role.caller]

end stopinformer

namespace stopinformers

open stopinformer

/-- The struct `genericStopInformers` (stopinformers.go, lines 27-30); the
mutex is held by every method for its whole body and is not represented. -/
structure genericStopInformers where
  informers : List Handle
  deriving DecidableEq, Repr

/-- The constructor `NewGenericStopInformers` (stopinformers.go, lines 32-37). -/
def NewGenericStopInformers : genericStopInformers :=
  { informers := [] }

/-- The method `Create` (stopinformers.go, lines 40-44). -/
def Create (g : genericStopInformers) (informer : Handle) : genericStopInformers :=
  { informers := g.informers ++ [informer] }

/-- The method `CreateAndReturn` (stopinformers.go, lines 47-52). -/
def CreateAndReturn (g : genericStopInformers) (informer : Handle) :
    Handle × genericStopInformers :=
  (informer, { informers := g.informers ++ [informer] })

/-- The method `removeInformer` (stopinformers.go, lines 66-70), a tuple
assignment: both right-hand sides are read first, then
`informers[len-1]` and `informers[index]` are written in that order.  The
length of the slice is not changed.  `none` is the index-out-of-range panic. -/
def removeInformer (g : genericStopInformers) (index : Nat) : Option genericStopInformers :=
  match g.informers[index]?, g.informers[g.informers.length - 1]? with
  | some atIndex, some atLast =>
      some { informers := (g.informers.set (g.informers.length - 1) atIndex).set index atLast }
  | _, _ => none

/-- Iterations `i, i+1, ..., i+remaining-1` of the range loop of `StopAll`
(stopinformers.go, lines 59-62).  Iteration `i` reads element `i` of the
backing array, calls `Stop` on it and then runs `removeInformer(i)`.  Each
call of `Stop` is recorded with the channel operations it performs. -/
def stopAllLoop : Nat → Nat → genericStopInformers → Heap → List (Handle × List Op) →
    Option (genericStopInformers × Heap × List (Handle × List Op))
  | 0, _, g, h, calls => some (g, h, calls)
  | remaining + 1, i, g, h, calls =>
      match g.informers[i]? with
      | none => none
      | some informer =>
          match removeInformer g i with
          | none => none
          | some g1 =>
              stopAllLoop remaining (i + 1) g1 (Stop informer h).1
                (calls ++ [(informer, (Stop informer h).2)])

/-- The method `StopAll` (stopinformers.go, lines 56-63): the range expression
is evaluated once, so the loop runs `len(g.informers)` iterations.  The result
is the set and the heap after the call, and the calls of `Stop` in order, each
taken to return. -/
def StopAll (g : genericStopInformers) (h : Heap) :
    Option (genericStopInformers × Heap × List (Handle × List Op)) :=
  stopAllLoop g.informers.length 0 g h []

end stopinformers

namespace stopinformermap

open stopinformer

/-- The struct `genericStopInformerMap` (stopinformermap.go, lines 31-34): a Go
map from names to handles; the mutex is not represented in the sequential
methods. -/
structure genericStopInformerMap where
  informers : AList (fun _ : String => Handle)

/-- The constructor `NewGenericStopInformerMap` (stopinformermap.go, lines 36-41). -/
def NewGenericStopInformerMap : genericStopInformerMap :=
  { informers := ∅ }

/-- The method `Create` (stopinformermap.go, lines 44-48):
`g.informers[name] = informer`. -/
def Create (g : genericStopInformerMap) (name : String) (informer : Handle) :
    genericStopInformerMap :=
  { informers := g.informers.insert name informer }

/-- The method `CreateAndReturn` (stopinformermap.go, lines 51-56). -/
def CreateAndReturn (g : genericStopInformerMap) (name : String) (informer : Handle) :
    Handle × genericStopInformerMap :=
  (informer, { informers := g.informers.insert name informer })

/-- The method `Get` (stopinformermap.go, lines 61-68).  The result is the
returned handle, the map after the call and the heap after the call. -/
def Get (g : genericStopInformerMap) (name : String) (h : Heap) :
    Handle × genericStopInformerMap × Heap :=
  match g.informers.lookup name with
  | some i => (i, g, h)
  | none =>
      let created := NewGenericStopInformer h
      let resolved := ResolveImmediately created.1 created.2.1
      (resolved.1, g, resolved.2)

/-- The method `Exists` (stopinformermap.go, lines 71-78). -/
def Exists (g : genericStopInformerMap) (name : String) : Bool :=
  match g.informers.lookup name with
  | some _ => true
  | none => false

/-- Entries a range loop over the map may still produce: the entries present
whose key has not been produced by an earlier iteration. -/
def unvisited (g : genericStopInformerMap) (visited : List String) :
    List (String × Handle) :=
  (g.informers.entries.filter (fun e => decide (e.1 ∉ visited))).map (fun e => (e.1, e.2))

/-- The range loop of `StopAll` (stopinformermap.go, lines 85-88).  The
order in which Go produces the entries of a map is not specified: iteration
number `j` produces the unvisited entry selected by the `j`-th element of
`picks`.  The body calls `Stop` on the entry and deletes its key.  `none`
means the list of picks ended before the loop did. -/
def stopAllLoop : List Nat → genericStopInformerMap → Heap → List String →
    List (String × Handle × List Op) →
    Option (genericStopInformerMap × Heap × List (String × Handle × List Op))
  | [], g, h, visited, calls =>
      match unvisited g visited with
      | [] => some (g, h, calls)
      | _ :: _ => none
  | k :: picks, g, h, visited, calls =>
      match unvisited g visited with
      | [] => some (g, h, calls)
      | e :: es =>
          let entry := (e :: es).getD (k % (es.length + 1)) e
          stopAllLoop picks { informers := g.informers.erase entry.1 } (Stop entry.2 h).1
            (entry.1 :: visited) (calls ++ [(entry.1, entry.2, (Stop entry.2 h).2)])

/-- The method `StopAll` (stopinformermap.go, lines 82-89). -/
def StopAll (g : genericStopInformerMap) (h : Heap) (picks : List Nat) :
    Option (genericStopInformerMap × Heap × List (String × Handle × List Op)) :=
  stopAllLoop picks g h [] []

/-! ## `StopAllAndNotify` on the map

The goroutine that calls `StopAllAndNotify`, the goroutine it starts for each
entry (lines 103-111), the aggregator goroutine (lines 114-117) and, for each
entry, the goroutines around its signal.  Every entry has a signal of its own:
channels of different signals are different allocations and no goroutine of one
entry holds a channel of another, so the channel identifiers inside an entry
are those of a heap of its own. -/

/-- The signal of an entry, created in a heap of its own and resolved when
`resolved` is set, with its relay and a worker watching it. -/
def Entry.world (resolved : Bool) : Handle × Heap × Threads :=
  if resolved then
    ((Threads.idle Heap.empty).1,
     (ResolveImmediately (Threads.idle Heap.empty).1 (Threads.idle Heap.empty).2.1).2,
     (Threads.idle Heap.empty).2.2)
  else Threads.idle Heap.empty

/-- One entry of the map: its key, whether its signal is resolved, and the
goroutines around its signal; `t.caller` is the goroutine started for the
entry at line 103, `none` until it is started. -/
structure Entry where
  key : String
  resolved : Bool
  t : Threads
  deriving DecidableEq, Repr

/-- The statements of the goroutine started for an entry
(stopinformermap.go, lines 103-111): the call `informer.StopAndNotify(0)`, the
receive from the channel it returns, then the deferred functions in reverse
order: `g.m.Lock(); delete(g.informers, key); g.m.Unlock()` and `wg.Done()`. -/
def outerBody (resolved : Bool) : List Instr :=
  (StopAndNotify (Entry.world resolved).1 0 (Entry.world resolved).2.1).2.2.map Instr.op ++
    [Instr.op (Op.chan (ChanOp.recv
        (StopAndNotify (Entry.world resolved).1 0 (Entry.world resolved).2.1).1)),
     Instr.lock, Instr.delete, Instr.unlock, Instr.wgDone]

/-- Where the goroutine executing `StopAllAndNotify` is (stopinformermap.go,
lines 94-119), and then its caller, which receives from the returned channel. -/
inductive CallerPc where
  | lock
  | makeNotify
  | range
  | add (i : Nat)
  | go (i : Nat)
  | goAggregator
  | unlock
  | recvNotify
  | received
  deriving DecidableEq, Repr

/-- Where the aggregator goroutine is (lines 114-117): at `wg.Wait()`, at
`notifyChan <- struct{}{}`, or finished. -/
inductive AggPc where
  | wait
  | send
  | finished
  deriving DecidableEq, Repr

/-- The state of one call of `StopAllAndNotify(buffer)`. -/
structure System where
  informers : genericStopInformerMap
  mutex : Bool
  wg : Nat
  buffer : Nat
  notify : Option ChanState
  caller : CallerPc
  aggregator : Option AggPc
  entries : List Entry

/-- A step of the system. -/
inductive Action where
  | caller (pick : Nat)
  | entry (i : Nat) (a : LocalAction)
  | entryStmt (i : Nat)
  | aggregator
  | notifySync
  deriving DecidableEq, Repr

/-- The entries the range loop may still produce: those whose goroutine has
not been started and whose key is still in the map. -/
def System.candidates (s : System) : List Nat :=
  (List.range s.entries.length).filter (fun i =>
    match s.entries[i]? with
    | some e => e.t.caller.isNone && Exists s.informers e.key
    | none => false)

/-- Replace the goroutines of entry `i`. -/
def System.setThreads (s : System) (i : Nat) (e : Entry) (t : Threads) : System :=
  { s with entries := s.entries.set i { e with t := t } }

/-- One step; `none` means the step is not enabled.
* `caller pick`: the next statement of `StopAllAndNotify`: `g.m.Lock()`;
  `make(notifyChan, buffer)` and the new wait group; the range loop producing
  an entry (the one selected by `pick`) or ending; `wg.Add(1)`; the `go`
  statement of the entry; the `go` statement of the aggregator; the deferred
  `g.m.Unlock()` on return; and the receive from the returned channel when it
  holds a value.
* `entry i a`: a step of the goroutines around the signal of entry `i`.
* `entryStmt i`: the goroutine of entry `i` executes `g.m.Lock()` (enabled when
  the mutex is free), `delete(g.informers, key)`, `g.m.Unlock()` or `wg.Done()`
  (which panics on a zero counter and is then no step).
* `aggregator`: `wg.Wait()` returns when the counter is zero; the send on
  `notifyChan` goes through when its buffer has room.
* `notifySync`: the aggregator's send meets the caller's receive. -/
def System.step (s : System) : Action → Option System
  | Action.caller pick =>
      match s.caller with
      | CallerPc.lock =>
          if s.mutex then none else some { s with mutex := true, caller := CallerPc.makeNotify }
      | CallerPc.makeNotify =>
          some { s with notify := some { cap := s.buffer, len := 0, receivers := 0 },
                        wg := 0, caller := CallerPc.range }
      | CallerPc.range =>
          match s.candidates with
          | [] => some { s with caller := CallerPc.goAggregator }
          | c :: cs => some { s with caller := CallerPc.add ((c :: cs).getD (pick % (cs.length + 1)) c) }
      | CallerPc.add i => some { s with wg := s.wg + 1, caller := CallerPc.go i }
      | CallerPc.go i =>
          match s.entries[i]? with
          | some e =>
              if e.t.caller = none then
                some { (s.setThreads i e { e.t with caller := some (outerBody e.resolved) }) with
                       caller := CallerPc.range }
              else none
          | none => none
      | CallerPc.goAggregator =>
          some { s with aggregator := some AggPc.wait, caller := CallerPc.unlock }
      | CallerPc.unlock => some { s with mutex := false, caller := CallerPc.recvNotify }
      | CallerPc.recvNotify =>
          match s.notify with
          | some st =>
              if 0 < st.len then
                some { s with notify := some { st with len := st.len - 1 },
                              caller := CallerPc.received }
              else none
          | none => none
      | CallerPc.received => none
  | Action.entry i a =>
      match s.entries[i]? with
      | some e => (e.t.step a).map (fun t1 => s.setThreads i e t1)
      | none => none
  | Action.entryStmt i =>
      match s.entries[i]? with
      | some e =>
          match e.t.stmt with
          | some (Instr.lock, t1) =>
              if s.mutex then none else some { (s.setThreads i e t1) with mutex := true }
          | some (Instr.delete, t1) =>
              some { (s.setThreads i e t1) with
                     informers := { informers := s.informers.informers.erase e.key } }
          | some (Instr.unlock, t1) => some { (s.setThreads i e t1) with mutex := false }
          | some (Instr.wgDone, t1) =>
              if s.wg = 0 then none else some { (s.setThreads i e t1) with wg := s.wg - 1 }
          | _ => none
      | none => none
  | Action.aggregator =>
      match s.aggregator with
      | some AggPc.wait => if s.wg = 0 then some { s with aggregator := some AggPc.send } else none
      | some AggPc.send =>
          match s.notify with
          | some st =>
              if st.len < st.cap then
                some { s with notify := some { st with len := st.len + 1 },
                              aggregator := some AggPc.finished }
              else none
          | none => none
      | _ => none
  | Action.notifySync =>
      match s.aggregator, s.caller, s.notify with
      | some AggPc.send, CallerPc.recvNotify, some st =>
          if st.len = 0 then
            some { s with aggregator := some AggPc.finished, caller := CallerPc.received }
          else none
      | _, _, _ => none

/-- Run a schedule: a list of steps, each of which must be enabled. -/
def System.run (s : System) : List Action → Option System
  | [] => some s
  | a :: rest => (s.step a).bind (fun s1 => s1.run rest)

/-- The state in which `StopAllAndNotify(buffer)` is called on map `g`, the
signals of its entries being those of heap `h`, each with its relay and a
watching worker. -/
def System.init (g : genericStopInformerMap) (h : Heap) (buffer : Nat) : System :=
  { informers := g
    mutex := false
    wg := 0
    buffer := buffer
    notify := none
    caller := CallerPc.lock
    aggregator := none
    entries := g.informers.entries.map (fun e =>
      { key := e.1, resolved := (h.objs e.2).resolveImmediately,
        t := (Entry.world (h.objs e.2).resolveImmediately).2.2 }) }

/-! ### Scenario C -/

/-- Scenario C: two armed signals in a heap. -/
def scenarioHeap : Heap :=
  (NewGenericStopInformer (NewGenericStopInformer Heap.empty).2.1).2.1

/-- Scenario C: the map with entries "a" and "b". -/
def scenarioMap : genericStopInformerMap :=
  Create (Create NewGenericStopInformerMap "a" 0) "b" 1

/-- The steps of entry `i` from the call of `StopAndNotify(0)` to the return of
its goroutine. -/
def entrySteps (i : Nat) : List Action :=
  [Action.entry i LocalAction.make, Action.entry i LocalAction.go,
   Action.entry i (LocalAction.sync Role.inner Role.relay),
   Action.entry i (LocalAction.sync Role.relay Role.worker),
   Action.entry i LocalAction.callAcknowledge,
   Action.entry i (LocalAction.sync Role.worker Role.inner),
   Action.entry i (LocalAction.sync Role.inner Role.caller),
   Action.entryStmt i, Action.entryStmt i, Action.entryStmt i, Action.entryStmt i]

/-- One execution of Scenario C: the loop starts both goroutines, the second
entry is stopped while the loop is still running (up to its `Lock`), then the
first, the aggregator passes `Wait` and meets the caller on the channel. -/
def scenarioSchedule : List Action :=
  [Action.caller 0, Action.caller 0, Action.caller 1, Action.caller 0, Action.caller 0] ++
    (entrySteps 1).take 7 ++
    [Action.caller 0, Action.caller 0, Action.caller 0, Action.caller 0, Action.caller 0,
     Action.caller 0] ++
    (entrySteps 1).drop 7 ++ entrySteps 0 ++ [Action.aggregator, Action.notifySync]

/-! ### The states an entry passes through, and the invariant of the system -/

/-- The goroutine of the entry has been started and has not returned: it is
counted by the wait group. -/
def running (t : Threads) : Bool :=
  t.caller.isSome && t.caller != some []

/-- The goroutine of the entry has executed its `delete(g.informers, key)`. -/
def pastDelete (t : Threads) : Bool :=
  t.caller == some [Instr.unlock, Instr.wgDone] || t.caller == some [Instr.wgDone] ||
    t.caller == some []

/-- Number of entries whose goroutine is running. -/
def countRunning : List Entry → Nat
  | [] => 0
  | e :: rest => (if running e.t then 1 else 0) + countRunning rest

/-- The steps of the goroutines around the signal of an entry, in the only
order in which they are enabled, up to the receive of the completion value. -/
def entrySchedule : List LocalAction :=
  [LocalAction.make, LocalAction.go, LocalAction.sync Role.inner Role.relay,
   LocalAction.sync Role.relay Role.worker, LocalAction.callAcknowledge,
   LocalAction.sync Role.worker Role.inner, LocalAction.sync Role.inner Role.caller]

/-- The goroutines of an entry when its goroutine has just been started. -/
def Entry.started (resolved : Bool) : Threads :=
  { (Entry.world resolved).2.2 with caller := some (outerBody resolved) }

/-- The goroutines of an entry after the first `k` steps of `entrySchedule`,
when these are enabled. -/
def Entry.stage (resolved : Bool) (k : Nat) : Option Threads :=
  (Entry.started resolved).run (entrySchedule.take k)

/-- All states the goroutines of an entry can be in: not started, the stages of
`entrySchedule`, and then the collection statements one by one. -/
def Entry.reachable (resolved : Bool) : List Threads :=
  (Entry.world resolved).2.2 ::
    ((List.range 8).filterMap (Entry.stage resolved) ++
      (match Entry.stage resolved 7 with
       | some t => (List.range 5).map (fun j => { t with caller := t.caller.map (List.drop j) })
       | none => []))

/-- The four goroutines around a signal. -/
def allRoles : List Role :=
  [Role.caller, Role.inner, Role.relay, Role.worker]

/-- Every step of the goroutines around a signal. -/
def allLocalActions : List LocalAction :=
  [LocalAction.callAcknowledge, LocalAction.make, LocalAction.go] ++
    (allRoles.foldr (fun s acc => allRoles.map (LocalAction.sync s) ++ acc) [] ++
      (allRoles.map LocalAction.bufSend ++ allRoles.map LocalAction.bufRecv))

/-- The invariant of `StopAllAndNotify`, `ks` being the keys of the map at the
call. -/
structure Inv (ks : List String) (s : System) : Prop where
  keys : s.entries.map Entry.key = ks
  reach : ∀ (i : Nat) (e : Entry), s.entries[i]? = some e → e.t ∈ Entry.reachable e.resolved
  count : s.wg = countRunning s.entries + (match s.caller with | CallerPc.go _ => 1 | _ => 0)
  del : ∀ (i : Nat) (e : Entry), s.entries[i]? = some e →
    (pastDelete e.t = true ↔ Exists s.informers e.key = false)
  pre : (s.caller = CallerPc.lock ∨ s.caller = CallerPc.makeNotify) →
    ∀ (i : Nat) (e : Entry), s.entries[i]? = some e → e.t.caller = none
  noAgg : s.aggregator ≠ none →
    (s.caller = CallerPc.unlock ∨ s.caller = CallerPc.recvNotify ∨ s.caller = CallerPc.received)
  post : (s.caller = CallerPc.goAggregator ∨ s.caller = CallerPc.unlock ∨
      s.caller = CallerPc.recvNotify ∨ s.caller = CallerPc.received) →
    ∀ (i : Nat) (e : Entry), s.entries[i]? = some e → e.t.caller ≠ none
  waited : (s.aggregator = some AggPc.send ∨ s.aggregator = some AggPc.finished) → s.wg = 0
  posted : (s.caller = CallerPc.received ∨ ∃ st, s.notify = some st ∧ 0 < st.len) →
    s.aggregator = some AggPc.finished

end stopinformermap

/-! # Theorems -/

namespace stopinformer

theorem Stop_heap (p : Handle) (h : Heap) : (Stop p h).1 = h := by
  simp only [Stop]
  split <;> rfl

theorem Stop_of_resolved (p : Handle) (h : Heap)
    (hr : (h.objs p).resolveImmediately = true) : Stop p h = (h, []) := by
  simp [Stop, hr]

theorem Stop_of_armed (p : Handle) (h : Heap)
    (hr : (h.objs p).resolveImmediately = false) :
    Stop p h = (h, [Op.chan (ChanOp.send (h.objs p).internalStopChan
                      (Val.chan (h.objs p).internalNotifyStoppedChan)),
                    Op.chan (ChanOp.recv (h.objs p).internalNotifyStoppedChan)]) := by
  simp [Stop, hr]

theorem Chans.lookup_put (cs : Chans) (c : ChanId) (s : ChanState) :
    List.lookup c (Chans.put cs c s) = some s := by
  simp [Chans.put, List.lookup]

theorem Heap.store_objs_same (h : Heap) (p : Handle) (v : genericStopInformer) :
    (h.store p v).objs p = v := by
  simp [Heap.store]

theorem StopAndNotify_objs (q : Handle) (b : Nat) (h : Heap) (p : Handle) :
    (StopAndNotify q b h).2.1.objs p
      = if p = q then { h.objs q with externalWatchStoppedChan := h.nextChan } else h.objs p := by
  cases hr : (h.objs q).resolveImmediately <;> simp [StopAndNotify, Heap.store, hr]

/-- `StopAndNotify` returns without blocking exactly when the signal is armed
or the buffer is positive. -/
theorem StopAndNotify_returns_iff (p : Handle) (b : Nat) (h : Heap) (cs : Chans) :
    (∃ cs1 sp, runCaller (StopAndNotify p b h).2.2 cs [] = Outcome.returned cs1 sp) ↔
      ((h.objs p).resolveImmediately = false ∨ 0 < b) := by
  cases hr : (h.objs p).resolveImmediately
  · simp [StopAndNotify, Heap.store, hr, runCaller]
  · by_cases hb : 0 < b
    · simp [StopAndNotify, Heap.store, hr, runCaller, Chans.lookup_put, hb]
    · simp [StopAndNotify, Heap.store, hr, runCaller, Chans.lookup_put, hb]

/-- C3 (the code departs from the claim): on a resolved signal,
`StopAndNotify(0)` makes an unbuffered channel and then sends on it while no
receiver can be waiting, so the caller blocks inside the call at that send. -/
theorem StopAndNotify_zero_resolved_blocks (h : Heap) (cs : Chans) :
    runCaller
      (StopAndNotify (NewGenericStopInformer h).1 0
        (ResolveImmediately (NewGenericStopInformer h).1 (NewGenericStopInformer h).2.1).2).2.2
      cs []
      = Outcome.blocked (ChanOp.send (h.nextChan + 4) Val.unit)
          (Chans.put cs (h.nextChan + 4) { cap := 0, len := 0, receivers := 0 }) := by
  simp [StopAndNotify, ResolveImmediately, NewGenericStopInformer, Heap.store, runCaller,
    Chans.lookup_put]

theorem Stop_iterate_heap (p : Handle) (h : Heap) (n : Nat) :
    Nat.iterate (fun s => (Stop p s).1) n h = h := by
  induction n with
  | zero => rfl
  | succ k ih => rw [Function.iterate_succ_apply, Stop_heap, ih]

/-- C7: `ResolveImmediately` returns the handle it was called on and sets its
resolved flag, changing nothing else; on a resolved signal `Stop` performs no
channel operation and leaves the heap unchanged, also after any number `n` of
earlier `Stop` calls; and no operation (`Stop`, `StopAndNotify`, `Watch`,
`ResolveImmediately`, on the same or another handle `q`) turns a true resolved
flag back to false. -/
theorem resolved_is_terminal (p q : Handle) (b n : Nat) (h : Heap) :
    ((ResolveImmediately p h).1 = p ∧
      ((ResolveImmediately p h).2.objs p) = { h.objs p with resolveImmediately := true } ∧
      (∀ r, r ≠ p → (ResolveImmediately p h).2.objs r = h.objs r)) ∧
    ((h.objs p).resolveImmediately = true →
      Stop p h = (h, []) ∧
      Stop p (Nat.iterate (fun s => (Stop p s).1) n h) = (h, []) ∧
      ((Stop q h).1.objs p).resolveImmediately = true ∧
      ((StopAndNotify q b h).2.1.objs p).resolveImmediately = true ∧
      ((Watch q h).2.objs p).resolveImmediately = true ∧
      ((ResolveImmediately q h).2.objs p).resolveImmediately = true) := by
  refine ⟨⟨rfl, ?_, ?_⟩, ?_⟩
  · simp [ResolveImmediately, Heap.store]
  · intro r hne
    simp [ResolveImmediately, Heap.store, hne]
  · intro hr
    refine ⟨Stop_of_resolved p h hr, ?_, ?_, ?_, ?_, ?_⟩
    · rw [Stop_iterate_heap p h n]
      exact Stop_of_resolved p h hr
    · rw [Stop_heap]; exact hr
    · rw [StopAndNotify_objs]
      by_cases hpq : p = q
      · subst hpq
        simp [hr]
      · simp [hpq, hr]
    · exact hr
    · by_cases hpq : p = q
      · simp [ResolveImmediately, Heap.store, hpq]
      · simp [ResolveImmediately, Heap.store, hpq, hr]

theorem resolved_is_terminal_witness :
    ((ResolveImmediately 0 (NewGenericStopInformer Heap.empty).2.1).2.objs 0).resolveImmediately
        = true ∧
    (Stop 0 (ResolveImmediately 0 (NewGenericStopInformer Heap.empty).2.1).2).2 = [] :=
  ⟨by decide,
   congrArg Prod.snd
     ((resolved_is_terminal 0 0 0 0
        (ResolveImmediately 0 (NewGenericStopInformer Heap.empty).2.1).2).2 (by decide)).1⟩

theorem lookup_cons_ite (c k : Nat) (v : ChanState) (l : Chans) :
    List.lookup c ((k, v) :: l) = if c = k then some v else List.lookup c l := by
  by_cases h : c = k
  · subst h; simp [List.lookup]
  · have hb : (c == k) = false := by simpa using h
    simp [List.lookup, hb, h]

theorem lookup_signalChans (n c : Nat) :
    List.lookup c (signalChans n)
      = if n ≤ c ∧ c ≤ n + 3 then some { cap := 0, len := 0, receivers := 0 } else none := by
  unfold signalChans
  rw [lookup_cons_ite, lookup_cons_ite, lookup_cons_ite, lookup_cons_ite]
  by_cases h3 : c = n + 3
  · have : n ≤ c ∧ c ≤ n + 3 := by omega
    simp [h3]
  by_cases h2 : c = n + 2
  · have : n ≤ c ∧ c ≤ n + 3 := by omega
    simp [h2]
  by_cases h1 : c = n + 1
  · have : n ≤ c ∧ c ≤ n + 3 := by omega
    simp [h1]
  by_cases h0 : c = n
  · simp [h0]
  have : ¬ (n ≤ c ∧ c ≤ n + 3) := by omega
  simp [h3, h2, h1, h0, this, List.lookup]

theorem stopping_eq_stage (h : Heap) : Threads.stopping h = Threads.stopStage h.nextChan 0 := by
  simp [Threads.stopping, Threads.idle, NewGenericStopInformer, runCaller, Chans.put, Outcome.chans,
    Outcome.spawned, Stop, Watch, Heap.store, NewStopAcker, Threads.stopStage, signalChans]

/-- At every stage of Scenario B the only enabled step is the one of
`stopSchedule`, and it leads to the next stage. -/
theorem stopStage_step (n : ChanId) (k : Nat) (a : LocalAction) (t1 : Threads)
    (hs : (Threads.stopStage n k).step a = some t1) :
    stopSchedule[k]? = some a ∧ t1 = Threads.stopStage n (k + 1) := by
  rcases k with _ | _ | _ | _ | k
  all_goals
    rcases a with ⟨s, r⟩ | r | r | _ | _ | _
    · cases s <;> cases r <;>
        simp [Threads.stopStage, Threads.step, Threads.pending, Threads.advance, lookup_signalChans,
              stopSchedule, stopAcker.Acknowledge] at hs ⊢ <;> exact hs.symm
    · cases r <;>
        simp [Threads.stopStage, Threads.step, Threads.pending, Threads.advance, lookup_signalChans,
              stopSchedule, stopAcker.Acknowledge] at hs ⊢
    · cases r <;>
        simp [Threads.stopStage, Threads.step, Threads.pending, Threads.advance, lookup_signalChans,
              stopSchedule, stopAcker.Acknowledge] at hs ⊢
    all_goals
        simp [Threads.stopStage, Threads.step, Threads.pending, Threads.advance, lookup_signalChans,
              stopSchedule, stopAcker.Acknowledge] at hs ⊢ <;> exact hs.symm

theorem stopStage_step_enabled (n : ChanId) (k : Nat) (hk : k < 4) :
    ∃ a, stopSchedule[k]? = some a ∧
      (Threads.stopStage n k).step a = some (Threads.stopStage n (k + 1)) := by
  rcases k with _ | _ | _ | _ | k
  · exact ⟨LocalAction.sync Role.caller Role.relay, rfl, by
      simp [Threads.stopStage, Threads.step, Threads.pending, Threads.advance, lookup_signalChans]⟩
  · exact ⟨LocalAction.sync Role.relay Role.worker, rfl, by
      simp [Threads.stopStage, Threads.step, Threads.pending, Threads.advance, lookup_signalChans]⟩
  · exact ⟨LocalAction.callAcknowledge, rfl, by
      simp [Threads.stopStage, Threads.step, stopAcker.Acknowledge]⟩
  · exact ⟨LocalAction.sync Role.worker Role.caller, rfl, by
      simp [Threads.stopStage, Threads.step, Threads.pending, Threads.advance, lookup_signalChans]⟩
  · omega

theorem stopStage_run (n : ChanId) (acts : List LocalAction) :
    ∀ (k : Nat) (t : Threads), (Threads.stopStage n k).run acts = some t →
      t = Threads.stopStage n (k + acts.length) ∧ (k ≤ 4 → k + acts.length ≤ 4) := by
  induction acts with
  | nil =>
      intro k t hr
      simp only [Threads.run, Option.some.injEq] at hr
      exact ⟨by simp [hr], fun hk => by simpa using hk⟩
  | cons a rest ih =>
      intro k t hr
      simp only [Threads.run] at hr
      cases hst : (Threads.stopStage n k).step a with
      | none => simp [hst] at hr
      | some t1 =>
          rw [hst] at hr
          simp only [Option.some_bind] at hr
          obtain ⟨hsched, ht1⟩ := stopStage_step n k a t1 hst
          have hk : k < 4 := by
            have : k < stopSchedule.length := by
              by_contra hc
              rw [List.getElem?_eq_none (by omega)] at hsched
              simp at hsched
            simpa [stopSchedule] using this
          subst ht1
          obtain ⟨h1, h2⟩ := ih (k + 1) t hr
          refine ⟨?_, fun _ => ?_⟩
          · rw [h1]
            congr 1
            simp only [List.length_cons]
            omega
          · have := h2 (by omega)
            simp only [List.length_cons]
            omega

/-- C6 (counterexample): Scenario B on the empty heap.  The schedule runs the
request through the relay to the worker, the worker calls `Acknowledge`, and
`Stop` returns.  In that state the resolved flag of the signal is false, and
the statements of a further `Stop` are not empty: the claim's "flag is true and
a further `Stop` is a no-op" fails. -/
theorem Stop_acknowledged_not_resolved_example :
    (Threads.stopping Heap.empty).run stopSchedule = some (Threads.stopStage 0 4) ∧
    (Threads.stopStage 0 4).caller = some [] ∧
    (Threads.stopStage 0 4).worker = Worker.acknowledging [] ∧
    ((Stop (Threads.idle Heap.empty).1 (Threads.idle Heap.empty).2.1).1.objs
        (Threads.idle Heap.empty).1).resolveImmediately = false ∧
    ¬ (((Stop (Threads.idle Heap.empty).1 (Threads.idle Heap.empty).2.1).1.objs
          (Threads.idle Heap.empty).1).resolveImmediately = true ∧
       (Stop (Threads.idle Heap.empty).1
          (Stop (Threads.idle Heap.empty).1 (Threads.idle Heap.empty).2.1).1).2 = []) := by
  decide

/-- C6 (amended): a controller has called `Stop` on a new armed signal whose
worker watches it.  In every execution (every schedule `acts` of enabled
steps of controller, relay and worker), in the state in which `Stop` has
returned: the worker has called `Acknowledge` and its send has completed; the
resolved flag of the signal, in the heap the call left, is still false; and a
further `Stop` by the controller is not a no-op: it takes the armed branch, so
the statement it is at is the send of a new request on the internal stop
channel of the signal. -/
theorem Stop_acknowledged_still_armed (h : Heap) (acts : List LocalAction) (t : Threads)
    (hr : (Threads.stopping h).run acts = some t) (hret : t.caller = some []) :
    t.worker = Worker.acknowledging [] ∧
    ((Stop (Threads.idle h).1 (Threads.idle h).2.1).1.objs
        (Threads.idle h).1).resolveImmediately = false ∧
    (Threads.stoppingAgain h t).pending Role.caller
      = some (ChanOp.send
          ((Stop (Threads.idle h).1 (Threads.idle h).2.1).1.objs
            (Threads.idle h).1).internalStopChan
          (Val.chan
            ((Stop (Threads.idle h).1 (Threads.idle h).2.1).1.objs
              (Threads.idle h).1).internalNotifyStoppedChan)) := by
  rw [stopping_eq_stage] at hr
  obtain ⟨ht, _⟩ := stopStage_run h.nextChan acts 0 t hr
  simp only [Nat.zero_add] at ht
  subst ht
  refine ⟨?_, ?_, ?_⟩
  · rcases hk : acts.length with _ | _ | _ | _ | k <;> rw [hk] at hret <;>
      simp [Threads.stopStage] at hret ⊢
  · simp [Threads.idle, NewGenericStopInformer, Stop, Heap.store]
  · simp [Threads.stoppingAgain, Threads.pending, Threads.idle, NewGenericStopInformer, Stop,
      Heap.store]

theorem Stop_acknowledged_still_armed_witness :
    (Threads.stopping Heap.empty).run stopSchedule = some (Threads.stopStage 0 4) ∧
    (Threads.stopStage 0 4).caller = some [] ∧
    (Threads.stoppingAgain Heap.empty (Threads.stopStage 0 4)).pending Role.caller
      = some (ChanOp.send
          ((Stop (Threads.idle Heap.empty).1 (Threads.idle Heap.empty).2.1).1.objs
            (Threads.idle Heap.empty).1).internalStopChan
          (Val.chan
            ((Stop (Threads.idle Heap.empty).1 (Threads.idle Heap.empty).2.1).1.objs
              (Threads.idle Heap.empty).1).internalNotifyStoppedChan)) :=
  ⟨by decide, rfl,
   (Stop_acknowledged_still_armed Heap.empty stopSchedule (Threads.stopStage 0 4)
      (by decide) rfl).2.2⟩

/-- In the model, once `Stop` has returned in Scenario B the relay has no
statement left and the worker is done, so when the controller calls `Stop`
again no step is enabled: nothing receives on the internal stop channel. -/
theorem stoppingAgain_no_step (h : Heap) (a : LocalAction) :
    (Threads.stoppingAgain h (Threads.stopStage h.nextChan 4)).step a = none := by
  have hst : Threads.stoppingAgain h (Threads.stopStage h.nextChan 4)
      = { chans := signalChans h.nextChan
          caller := some [Instr.op (Op.chan (ChanOp.send h.nextChan (Val.chan (h.nextChan + 1)))),
                          Instr.op (Op.chan (ChanOp.recv (h.nextChan + 1)))]
          inner := none
          relay := []
          worker := Worker.acknowledging [] } := by
    simp [Threads.stoppingAgain, Threads.stopStage, Threads.idle, NewGenericStopInformer, Stop,
      Heap.store]
  rw [hst]
  rcases a with ⟨s, r⟩ | r | r | _ | _ | _
  · cases s <;> cases r <;> simp [Threads.step, Threads.pending]
  · cases r <;> simp [Threads.step, Threads.pending]
  · cases r <;> simp [Threads.step, Threads.pending, lookup_signalChans]
  all_goals simp [Threads.step]

/-- C10: a controller has called `Stop` on a new armed signal whose worker
watches it (Scenario B).  In every execution (every schedule `acts` of enabled
steps): if `Stop` has returned then the worker's `Acknowledge` call has been
made and has completed; once the worker is inside `Acknowledge` and `Stop` has
not returned, the meeting of the two on the acknowledgment channel is enabled,
it makes `Stop` return, and no other step is possible; before `Stop` has
returned some step is always enabled; and no execution is longer than four
steps. -/
theorem Stop_returns_after_Acknowledge (h : Heap) (acts : List LocalAction) (t : Threads)
    (hr : (Threads.stopping h).run acts = some t) :
    (t.caller = some [] → t.worker = Worker.acknowledging []) ∧
    (∀ ops, t.worker = Worker.acknowledging ops → t.caller ≠ some [] →
      (∃ t1, t.step (LocalAction.sync Role.worker Role.caller) = some t1 ∧ t1.caller = some []) ∧
      (∀ a t1, t.step a = some t1 → t1.caller = some [])) ∧
    (t.caller ≠ some [] → ∃ a t1, t.step a = some t1) ∧
    acts.length ≤ 4 := by
  rw [stopping_eq_stage] at hr
  obtain ⟨ht, hlen⟩ := stopStage_run h.nextChan acts 0 t hr
  have hlen4 : acts.length ≤ 4 := by
    have := hlen (by omega)
    omega
  simp only [Nat.zero_add] at ht
  subst ht
  refine ⟨?_, ?_, ?_, hlen4⟩
  · intro hc
    rcases hk : acts.length with _ | _ | _ | _ | k <;> rw [hk] at hc <;>
      simp [Threads.stopStage] at hc ⊢
  · intro ops hw hc
    have h3 : acts.length = 3 := by
      rcases hk : acts.length with _ | _ | _ | _ | k <;> rw [hk] at hw hc <;>
        simp [Threads.stopStage] at hw hc ⊢
    rw [h3]
    refine ⟨?_, ?_⟩
    · obtain ⟨a, ha, hstep⟩ := stopStage_step_enabled h.nextChan 3 (by omega)
      have : a = LocalAction.sync Role.worker Role.caller := by
        simpa [stopSchedule] using ha.symm
      subst this
      exact ⟨_, hstep, by simp [Threads.stopStage]⟩
    · intro a t1 hst
      obtain ⟨_, ht1⟩ := stopStage_step h.nextChan 3 a t1 hst
      subst ht1
      simp [Threads.stopStage]
  · intro hc
    have hlt : acts.length < 4 := by
      by_contra hge
      have h4 : acts.length = 4 := by omega
      rw [h4] at hc
      simp [Threads.stopStage] at hc
    obtain ⟨a, _, hstep⟩ := stopStage_step_enabled h.nextChan acts.length hlt
    exact ⟨a, _, hstep⟩

theorem Stop_returns_after_Acknowledge_witness :
    (Threads.stopping Heap.empty).run stopSchedule = some (Threads.stopStage 0 4) ∧
    (Threads.stopStage 0 4).caller = some [] ∧
    (Threads.stopStage 0 4).worker = Worker.acknowledging [] :=
  ⟨by decide, rfl,
   (Stop_returns_after_Acknowledge Heap.empty stopSchedule (Threads.stopStage 0 4)
      (by decide)).1 rfl⟩

end stopinformer

namespace stopinformers

open stopinformer

theorem removeInformer_length (g g1 : genericStopInformers) (i : Nat)
    (hr : removeInformer g i = some g1) : g1.informers.length = g.informers.length := by
  unfold removeInformer at hr
  split at hr
  · simp only [Option.some.injEq] at hr
    subst hr
    simp
  · simp at hr

theorem removeInformer_isSome (g : genericStopInformers) (i : Nat)
    (hi : i < g.informers.length) : ∃ g1, removeInformer g i = some g1 := by
  unfold removeInformer
  have h1 : g.informers[i]? = some g.informers[i] := List.getElem?_eq_getElem hi
  have hl : g.informers.length - 1 < g.informers.length := by omega
  have h2 : g.informers[g.informers.length - 1]? = some g.informers[g.informers.length - 1] :=
    List.getElem?_eq_getElem hl
  rw [h1, h2]
  exact ⟨_, rfl⟩

theorem stopAllLoop_length (remaining : Nat) :
    ∀ (i : Nat) (g : genericStopInformers) (h : Heap) (calls : List (Handle × List Op)),
      i + remaining ≤ g.informers.length →
      ∃ r, stopAllLoop remaining i g h calls = some r ∧
        r.1.informers.length = g.informers.length ∧
        r.2.2.length = calls.length + remaining := by
  induction remaining with
  | zero =>
      intro i g h calls _
      exact ⟨(g, h, calls), rfl, rfl, rfl⟩
  | succ n ih =>
      intro i g h calls hle
      have hi : i < g.informers.length := by omega
      obtain ⟨g1, hg1⟩ := removeInformer_isSome g i hi
      have hlen := removeInformer_length g g1 i hg1
      have hget : g.informers[i]? = some g.informers[i] := List.getElem?_eq_getElem hi
      obtain ⟨r, hr, hrl, hrc⟩ := ih (i + 1) g1 (Stop g.informers[i] h).1
        (calls ++ [(g.informers[i], (Stop g.informers[i] h).2)]) (by omega)
      refine ⟨r, ?_, ?_, ?_⟩
      · simp only [stopAllLoop, hget, hg1]
        exact hr
      · omega
      · simp at hrc
        omega

/-- C2 (the code departs from the claim): for every set and heap, `StopAll`
returns and the slice it leaves has the length it had before the call, so a
set of `n >= 1` handles is not empty afterwards. -/
theorem StopAll_keeps_length (g : genericStopInformers) (h : Heap) :
    (StopAll g h).map (fun r => r.1.informers.length) = some g.informers.length := by
  obtain ⟨r, hr, hrl, _⟩ := stopAllLoop_length g.informers.length 0 g h [] (by omega)
  simp [StopAll, hr, hrl]

/-- C1 (the code departs from the claim): on a set of two handles `a`, `b`,
`StopAll` calls `Stop` on `a` twice and never on `b`; the slice afterwards is
`[b, a]`. -/
theorem StopAll_two_handles (a b : Handle) (h : Heap) :
    (StopAll { informers := [a, b] } h).map (fun r => (r.1.informers, r.2.2.map Prod.fst))
      = some ([b, a], [a, a]) := by
  simp [StopAll, stopAllLoop, removeInformer, Stop_heap]

theorem removeInformer_mid (last cur r : Handle) (done rs : List Handle) :
    removeInformer { informers := last :: (done ++ r :: rs ++ [cur]) } (done.length + 1)
      = some { informers := last :: (done ++ cur :: rs ++ [r]) } := by
  have hlen : (last :: (done ++ r :: rs ++ [cur])).length - 1 = (done ++ r :: rs).length + 1 := by
    simp only [List.length_cons, List.length_append, List.length_nil]
    omega
  have h1 : (last :: (done ++ r :: rs ++ [cur]))[done.length + 1]? = some r := by
    simp only [List.getElem?_cons_succ, List.append_assoc]
    rw [List.getElem?_append_right (Nat.le_refl _)]
    simp
  have h2 : (last :: (done ++ r :: rs ++ [cur]))[(done ++ r :: rs).length + 1]? = some cur := by
    simp only [List.getElem?_cons_succ]
    rw [List.getElem?_append_right (Nat.le_refl _)]
    simp
  simp only [removeInformer, hlen, h1, h2]
  congr 2
  simp only [List.set_cons_succ]
  congr 1
  rw [List.set_append_right _ _ (Nat.le_refl _)]
  simp only [Nat.sub_self, List.set_cons_zero]
  rw [List.append_assoc, List.set_append_right _ _ (Nat.le_refl _)]
  simp

theorem removeInformer_end (last cur : Handle) (done : List Handle) :
    removeInformer { informers := last :: (done ++ [cur]) } (done.length + 1)
      = some { informers := last :: (done ++ [cur]) } := by
  have hlen : (last :: (done ++ [cur])).length - 1 = done.length + 1 := by
    simp only [List.length_cons, List.length_append, List.length_nil]
    omega
  have h1 : (last :: (done ++ [cur]))[done.length + 1]? = some cur := by
    simp only [List.getElem?_cons_succ]
    rw [List.getElem?_append_right (Nat.le_refl _)]
    simp
  simp only [removeInformer, hlen, h1]
  congr 2
  simp only [List.set_cons_succ]
  congr 1
  rw [List.set_append_right _ _ (Nat.le_refl _)]
  simp

theorem stopAllLoop_step (n i : Nat) (g g1 : genericStopInformers) (h : Heap)
    (calls : List (Handle × List Op)) (informer : Handle)
    (h1 : g.informers[i]? = some informer) (h2 : removeInformer g i = some g1) :
    stopAllLoop (n + 1) i g h calls
      = stopAllLoop n (i + 1) g1 h (calls ++ [(informer, (Stop informer h).2)]) := by
  rw [stopAllLoop]
  simp only [h1, h2, Stop_heap]

theorem stopAllLoop_rotate (rest : List Handle) :
    ∀ (done : List Handle) (last cur : Handle) (h : Heap) (calls : List (Handle × List Op)),
      stopAllLoop (rest.length + 1) (done.length + 1)
          { informers := last :: (done ++ rest ++ [cur]) } h calls
        = some ({ informers := last :: (done ++ cur :: rest) }, h,
            calls ++ (rest ++ [(cur :: rest).getLast (List.cons_ne_nil _ _)]).map
              (fun p => (p, (Stop p h).2))) := by
  induction rest with
  | nil =>
      intro done last cur h calls
      have h1 : (last :: (done ++ [cur]))[done.length + 1]? = some cur := by
        simp only [List.getElem?_cons_succ]
        rw [List.getElem?_append_right (Nat.le_refl _)]
        simp
      simp only [List.append_nil, List.length_nil, Nat.zero_add]
      rw [stopAllLoop_step 0 _ _ _ h calls cur h1 (removeInformer_end last cur done)]
      simp [stopAllLoop]
  | cons r rs ih =>
      intro done last cur h calls
      have h1 : (last :: (done ++ r :: rs ++ [cur]))[done.length + 1]? = some r := by
        simp only [List.getElem?_cons_succ, List.append_assoc]
        rw [List.getElem?_append_right (Nat.le_refl _)]
        simp
      have hstep := ih (done ++ [cur]) last r h (calls ++ [(r, (Stop r h).2)])
      simp only [List.length_append, List.length_singleton, List.append_assoc,
        List.singleton_append, List.cons_append, List.nil_append] at hstep
      rw [List.length_cons,
        stopAllLoop_step (rs.length + 1) _ _ _ h calls r h1 (removeInformer_mid last cur r done rs)]
      simp only [List.append_assoc, List.cons_append, List.nil_append]
      rw [hstep]
      simp

/-- For every set of at least two handles `first :: (rest ++ [last])`, `StopAll`
returns with the slice rotated by one place, `last` in front; `Stop` has been
called on every handle but `last`, and twice on the handle before `last`. -/
theorem StopAll_skips_last (first last : Handle) (rest : List Handle) (h : Heap) :
    (StopAll { informers := first :: (rest ++ [last]) } h).map
        (fun r => (r.1.informers, r.2.2.map Prod.fst))
      = some (last :: first :: rest,
          first :: (rest ++ [(first :: rest).getLast (List.cons_ne_nil _ _)])) := by
  have h0 : removeInformer { informers := first :: (rest ++ [last]) } 0
      = some { informers := last :: (rest ++ [first]) } := by
    have hlen : (first :: (rest ++ [last])).length - 1 = rest.length + 1 := by
      simp only [List.length_cons, List.length_append, List.length_nil]
      omega
    have h2 : (first :: (rest ++ [last]))[rest.length + 1]? = some last := by
      simp only [List.getElem?_cons_succ]
      rw [List.getElem?_append_right (Nat.le_refl _)]
      simp
    simp only [removeInformer, hlen, h2, List.getElem?_cons_zero]
    congr 2
    simp only [List.set_cons_succ, List.set_cons_zero]
    congr 1
    rw [List.set_append_right _ _ (Nat.le_refl _)]
    simp
  have hloop := stopAllLoop_rotate rest [] last first h [(first, (Stop first h).2)]
  simp only [List.length_nil, Nat.zero_add, List.nil_append] at hloop
  have hlen : (first :: (rest ++ [last])).length = (rest.length + 1) + 1 := by simp
  unfold StopAll
  rw [hlen, stopAllLoop_step (rest.length + 1) 0 _ _ h [] first (by simp) h0]
  simp only [List.nil_append, Nat.zero_add]
  rw [hloop]
  have hfst : ∀ l : List Handle, List.map (Prod.fst ∘ fun p => (p, (Stop p h).2)) l = l := by
    intro l
    induction l with
    | nil => rfl
    | cons x xs ihx => simp [ihx]
  simp [hfst]

end stopinformers

namespace stopinformermap

open stopinformer

theorem Exists_eq_false_iff (g : genericStopInformerMap) (name : String) :
    Exists g name = false ↔ g.informers.lookup name = none := by
  unfold Exists
  cases g.informers.lookup name <;> simp

theorem Exists_eq_true_iff (g : genericStopInformerMap) (name : String) :
    Exists g name = true ↔ ∃ i, g.informers.lookup name = some i := by
  unfold Exists
  cases g.informers.lookup name <;> simp

/-- C4: for a name that is not a key of the map, `Get` returns a handle whose
resolved flag is set, so `Stop` on it performs no channel operation and changes
nothing; the handle is a newly allocated object; `Get` leaves the map as it
was and `Exists` of the name is still false. -/
theorem Get_absent (g : genericStopInformerMap) (name : String) (h : Heap)
    (hn : Exists g name = false) :
    ((Get g name h).2.2.objs (Get g name h).1).resolveImmediately = true ∧
    Stop (Get g name h).1 (Get g name h).2.2 = ((Get g name h).2.2, []) ∧
    (Get g name h).1 = h.nextObj ∧
    (Get g name h).2.1 = g ∧
    Exists (Get g name h).2.1 name = false := by
  have hl : g.informers.lookup name = none := (Exists_eq_false_iff g name).1 hn
  have hflag : ((Get g name h).2.2.objs (Get g name h).1).resolveImmediately = true := by
    simp [Get, hl, NewGenericStopInformer, ResolveImmediately, Heap.store]
  refine ⟨hflag, Stop_of_resolved _ _ hflag, ?_, ?_, ?_⟩
  · simp [Get, hl, NewGenericStopInformer, ResolveImmediately]
  · simp [Get, hl]
  · simp [Get, hl, hn]

theorem Get_absent_witness :
    Exists NewGenericStopInformerMap "missing" = false ∧
    Stop (Get NewGenericStopInformerMap "missing" Heap.empty).1
        (Get NewGenericStopInformerMap "missing" Heap.empty).2.2
      = ((Get NewGenericStopInformerMap "missing" Heap.empty).2.2, []) :=
  ⟨by decide, (Get_absent NewGenericStopInformerMap "missing" Heap.empty (by decide)).2.1⟩

/-- C8: after `Create(n, s)` (and after `CreateAndReturn(n, s)`, which returns
`s` and leaves the same map) `Get(n)` returns `s` without touching the heap and
`Exists(n)` is true; a later `Create(n, s2)` overwrites, so `Get(n)` returns
`s2`; and for a name `n2` other than `n`, `Exists(n2)` and what `Get(n2)` does
(handle and heap) are as before the `Create`. -/
theorem Create_then_Get (g : genericStopInformerMap) (n n2 : String) (s s2 : Handle)
    (h : Heap) :
    (Get (Create g n s) n h).1 = s ∧
    (Get (Create g n s) n h).2.2 = h ∧
    Exists (Create g n s) n = true ∧
    CreateAndReturn g n s = (s, Create g n s) ∧
    (Get (Create (Create g n s) n s2) n h).1 = s2 ∧
    (n2 ≠ n →
      Exists (Create g n s) n2 = Exists g n2 ∧
      (Create g n s).informers.lookup n2 = g.informers.lookup n2 ∧
      (Get (Create g n s) n2 h).1 = (Get g n2 h).1 ∧
      (Get (Create g n s) n2 h).2.2 = (Get g n2 h).2.2) := by
  refine ⟨?_, ?_, ?_, rfl, ?_, ?_⟩
  · simp [Get, Create, AList.lookup_insert]
  · simp [Get, Create, AList.lookup_insert]
  · simp [Exists, Create, AList.lookup_insert]
  · simp [Get, Create, AList.lookup_insert]
  · intro hne
    have hl : (Create g n s).informers.lookup n2 = g.informers.lookup n2 := by
      simp [Create, AList.lookup_insert_ne hne]
    refine ⟨?_, hl, ?_, ?_⟩
    · simp [Exists, hl]
    · simp only [Get, hl]
      cases g.informers.lookup n2 <;> rfl
    · simp only [Get, hl]
      cases g.informers.lookup n2 <;> rfl

theorem Create_then_Get_witness :
    "b" ≠ "a" ∧
    Exists (Create NewGenericStopInformerMap "a" 7) "b" = Exists NewGenericStopInformerMap "b" :=
  ⟨by decide,
   ((Create_then_Get NewGenericStopInformerMap "a" "b" 7 8 Heap.empty).2.2.2.2.2
      (by decide)).1⟩

theorem perm_cons_kerase {l : List (Sigma (fun _ : String => Handle))} (nd : l.NodupKeys)
    {a : String} {b : Handle} (hm : Sigma.mk a b ∈ l) :
    List.Perm l (Sigma.mk a b :: List.kerase a l) := by
  have hk : a ∈ l.keys := List.mem_keys_of_mem hm
  obtain ⟨b1, l1, l2, _, hl, hke⟩ := List.exists_of_kerase hk
  have hb : b = b1 := by
    apply nd.eq_of_mk_mem hm
    rw [hl]
    simp
  subst hb
  rw [hke]
  conv_lhs => rw [hl]
  exact List.perm_middle

theorem unvisited_of_deleted (g : genericStopInformerMap) (visited : List String)
    (hv : ∀ k ∈ visited, k ∉ g.informers) :
    unvisited g visited = g.informers.entries.map (fun e => (e.1, e.2)) := by
  unfold unvisited
  congr 1
  rw [List.filter_eq_self]
  intro e he
  have hk : e.1 ∈ g.informers := by
    rw [AList.mem_keys]
    exact List.mem_keys_of_mem (by cases e; exact he)
  simp only [decide_eq_true_eq]
  intro hmem
  exact hv e.1 hmem hk

theorem getD_mod_mem {α : Type} (e : α) (es : List α) (k : Nat) :
    (e :: es).getD (k % (es.length + 1)) e ∈ e :: es := by
  have hlt : k % (es.length + 1) < (e :: es).length := by
    simp only [List.length_cons]
    exact Nat.mod_lt _ (Nat.succ_pos _)
  rw [List.getD_eq_getElem _ _ hlt]
  exact List.getElem_mem _

theorem stopAllLoop_spec (picks : List Nat) :
    ∀ (g : genericStopInformerMap) (h : Heap) (visited : List String)
      (calls : List (String × Handle × List Op)),
      (∀ k ∈ visited, k ∉ g.informers) →
      g.informers.entries.length ≤ picks.length →
      ∃ g1 done, stopAllLoop picks g h visited calls = some (g1, h, calls ++ done) ∧
        g1.informers.entries = [] ∧
        List.Perm (done.map (fun c => (c.1, c.2.1)))
          (g.informers.entries.map (fun e => (e.1, e.2))) ∧
        ∀ c ∈ done, c.2.2 = (Stop c.2.1 h).2 := by
  induction picks with
  | nil =>
      intro g h visited calls hv hlen
      have he : g.informers.entries = [] := List.length_eq_zero.mp (by simpa using hlen)
      refine ⟨g, [], ?_, he, ?_, ?_⟩
      · simp [stopAllLoop, unvisited_of_deleted g visited hv, he]
      · simp [he]
      · simp
  | cons k ps ih =>
      intro g h visited calls hv hlen
      have hu := unvisited_of_deleted g visited hv
      cases hent : g.informers.entries.map (fun e => (e.1, e.2)) with
      | nil =>
          have he : g.informers.entries = [] := by simpa using hent
          refine ⟨g, [], ?_, he, ?_, ?_⟩
          · simp [stopAllLoop, hu, hent]
          · simp
          · simp
      | cons e es =>
          obtain ⟨key, hd, hsel⟩ :
              ∃ key hd, (e :: es).getD (k % (es.length + 1)) e = (key, hd) := ⟨_, _, rfl⟩
          have hmem : (key, hd) ∈ g.informers.entries.map (fun e => (e.1, e.2)) := by
            rw [hent, ← hsel]
            exact getD_mod_mem e es k
          have hmem2 : Sigma.mk key hd ∈ g.informers.entries := by
            rw [List.mem_map] at hmem
            obtain ⟨x, hx, hxe⟩ := hmem
            cases x
            simp only [Prod.mk.injEq] at hxe
            obtain ⟨h1, h2⟩ := hxe
            subst h1; subst h2
            exact hx
          have hperm := perm_cons_kerase g.informers.nodupKeys hmem2
          have hv1 : ∀ k1 ∈ key :: visited,
              k1 ∉ (⟨g.informers.erase key⟩ : genericStopInformerMap).informers := by
            intro k1 hk1
            rw [AList.mem_erase]
            rcases List.mem_cons.mp hk1 with hk | hk
            · simp [hk]
            · intro hc
              exact hv k1 hk hc.2
          have hlen1 : (⟨g.informers.erase key⟩ : genericStopInformerMap).informers.entries.length
              ≤ ps.length := by
            have := hperm.length_eq
            simp only [List.length_cons] at this hlen
            show (List.kerase key g.informers.entries).length ≤ ps.length
            omega
          obtain ⟨g1, done, hrun, hemp, hpm, hops⟩ := ih ⟨g.informers.erase key⟩ h
            (key :: visited) (calls ++ [(key, hd, (Stop hd h).2)]) hv1 hlen1
          refine ⟨g1, (key, hd, (Stop hd h).2) :: done, ?_, hemp, ?_, ?_⟩
          · simp only [stopAllLoop, hu, hent]
            rw [hsel]
            simp only [Stop_heap]
            rw [hrun]
            simp
          · simp only [List.map_cons]
            refine List.Perm.trans (List.Perm.cons _ hpm) ?_
            rw [← hent]
            have := (hperm.map (fun e => (e.1, e.2))).symm
            simpa [AList.erase] using this
          · intro c hc
            rcases List.mem_cons.mp hc with hc1 | hc1
            · subst hc1; rfl
            · exact hops c hc1

/-- C5: for every map and every iteration order of the range loop (`picks`, at
least as long as the map has entries), `StopAll` returns, each `Stop` call
being taken to return; afterwards the map is empty, so `Exists(name)` is false
for every name; `Stop` was called exactly once on each member (the calls are a
permutation of the entries the map had); and when every member is resolved no
call performed a channel operation. -/
theorem StopAll_empties (g : genericStopInformerMap) (h : Heap) (picks : List Nat)
    (hp : g.informers.entries.length ≤ picks.length) :
    ∃ g1 calls, StopAll g h picks = some (g1, h, calls) ∧
      g1.informers.entries = [] ∧
      (∀ name, Exists g1 name = false) ∧
      List.Perm (calls.map (fun c => (c.1, c.2.1)))
        (g.informers.entries.map (fun e => (e.1, e.2))) ∧
      ((∀ e ∈ g.informers.entries, (h.objs e.2).resolveImmediately = true) →
        ∀ c ∈ calls, c.2.2 = []) := by
  obtain ⟨g1, done, hrun, hemp, hpm, hops⟩ := stopAllLoop_spec picks g h [] [] (by simp) hp
  refine ⟨g1, done, by simpa [StopAll] using hrun, hemp, ?_, hpm, ?_⟩
  · intro name
    rw [Exists_eq_false_iff, AList.lookup_eq_none, AList.mem_keys]
    simp [AList.keys, hemp]
  · intro hres c hc
    rw [hops c hc]
    have hin : (c.1, c.2.1) ∈ g.informers.entries.map (fun e => (e.1, e.2)) :=
      hpm.subset (List.mem_map.mpr ⟨c, hc, rfl⟩)
    obtain ⟨e, he, hee⟩ := List.mem_map.mp hin
    have h2 : e.2 = c.2.1 := by
      have := congrArg Prod.snd hee
      simpa using this
    have := hres e he
    rw [h2] at this
    simp [Stop, this]

theorem StopAll_empties_witness :
    (Create (Create NewGenericStopInformerMap "informer1" 0) "informer2" 1).informers.entries.length
        ≤ [1, 0].length ∧
    ∃ g1 calls,
      StopAll (Create (Create NewGenericStopInformerMap "informer1" 0) "informer2" 1)
        Heap.empty [1, 0] = some (g1, Heap.empty, calls) ∧ g1.informers.entries = [] :=
  ⟨by decide,
   match StopAll_empties (Create (Create NewGenericStopInformerMap "informer1" 0) "informer2" 1)
      Heap.empty [1, 0] (by decide) with
   | ⟨g1, calls, hrun, hemp, _⟩ => ⟨g1, calls, hrun, hemp⟩⟩

/-! ## `StopAllAndNotify`: the invariant is preserved by every step -/

theorem mem_allLocalActions (a : LocalAction) : a ∈ allLocalActions := by
  rcases a with ⟨s, r⟩ | r | r | _ | _ | _
  · cases s <;> cases r <;> decide
  · cases r <;> decide
  · cases r <;> decide
  all_goals decide

set_option maxRecDepth 100000 in
theorem reachable_step_all :
    ∀ r ∈ [true, false], ∀ t ∈ Entry.reachable r, ∀ a ∈ allLocalActions, ∀ t1 ∈ t.step a,
      t1 ∈ Entry.reachable r ∧ t1.caller.isSome = t.caller.isSome ∧
        running t1 = running t ∧ pastDelete t1 = pastDelete t := by
  decide

set_option maxRecDepth 100000 in
theorem reachable_stmt_all :
    ∀ r ∈ [true, false], ∀ t ∈ Entry.reachable r, ∀ x ∈ t.stmt,
      x.2 ∈ Entry.reachable r ∧ x.2.caller.isSome = true ∧ t.caller.isSome = true ∧
        running t = true ∧ running x.2 = (x.1 != Instr.wgDone) ∧
        pastDelete x.2 = (pastDelete t || x.1 == Instr.delete) ∧
        (x.1 = Instr.delete → pastDelete t = false) := by
  decide

set_option maxRecDepth 100000 in
theorem reachable_final_all :
    ∀ r ∈ [true, false], ∀ t ∈ Entry.reachable r, t.caller = some [] →
      t.worker = Worker.acknowledging [] ∧ pastDelete t = true ∧ r = false := by
  decide

set_option maxRecDepth 100000 in
theorem reachable_start_all :
    ∀ r ∈ [true, false], ∀ t ∈ Entry.reachable r, t.caller = none →
      { t with caller := some (outerBody r) } ∈ Entry.reachable r ∧
        running { t with caller := some (outerBody r) } = true ∧
        pastDelete { t with caller := some (outerBody r) } = false := by
  decide

theorem mem_bools (r : Bool) : r ∈ [true, false] := by
  cases r <;> simp

theorem reachable_step (r : Bool) (t t1 : Threads) (a : LocalAction)
    (ht : t ∈ Entry.reachable r) (hs : t.step a = some t1) :
    t1 ∈ Entry.reachable r ∧ t1.caller.isSome = t.caller.isSome ∧
      running t1 = running t ∧ pastDelete t1 = pastDelete t :=
  reachable_step_all r (mem_bools r) t ht a (mem_allLocalActions a) t1 hs

theorem reachable_stmt (r : Bool) (t t1 : Threads) (x : Instr)
    (ht : t ∈ Entry.reachable r) (hs : t.stmt = some (x, t1)) :
    t1 ∈ Entry.reachable r ∧ t1.caller.isSome = true ∧ t.caller.isSome = true ∧
      running t = true ∧ running t1 = (x != Instr.wgDone) ∧
      pastDelete t1 = (pastDelete t || x == Instr.delete) ∧
      (x = Instr.delete → pastDelete t = false) :=
  reachable_stmt_all r (mem_bools r) t ht (x, t1) hs

theorem running_of_none (t : Threads) (h : t.caller = none) :
    running t = false ∧ pastDelete t = false := by
  simp [running, pastDelete, h]

theorem set_get_cases (l : List Entry) (i j : Nat) (e e1 e2 : Entry)
    (_he : l[i]? = some e) (h : (l.set i e1)[j]? = some e2) :
    (j = i ∧ e2 = e1) ∨ (j ≠ i ∧ l[j]? = some e2) := by
  rw [List.getElem?_set] at h
  by_cases hij : i = j
  · subst hij
    left
    simp only [if_true] at h
    split at h
    · exact ⟨rfl, (Option.some.inj h).symm⟩
    · simp at h
  · right
    simp only [hij, if_false] at h
    exact ⟨fun hc => hij hc.symm, h⟩

theorem countRunning_set (l : List Entry) :
    ∀ (i : Nat) (e e1 : Entry), l[i]? = some e →
      countRunning (l.set i e1) + (if running e.t then 1 else 0)
        = countRunning l + (if running e1.t then 1 else 0) := by
  induction l with
  | nil => intro i e e1 he; simp at he
  | cons x xs ih =>
      intro i e e1 he
      cases i with
      | zero =>
          simp only [List.getElem?_cons_zero, Option.some.injEq] at he
          subst he
          simp only [List.set_cons_zero, countRunning]
          omega
      | succ k =>
          simp only [List.getElem?_cons_succ] at he
          have := ih k e e1 he
          simp only [List.set_cons_succ, countRunning]
          omega

theorem countRunning_eq_zero (l : List Entry) (h : countRunning l = 0) :
    ∀ (j : Nat) (e : Entry), l[j]? = some e → running e.t = false := by
  induction l with
  | nil => intro j e he; simp at he
  | cons x xs ih =>
      intro j e he
      simp only [countRunning] at h
      cases j with
      | zero =>
          simp only [List.getElem?_cons_zero, Option.some.injEq] at he
          subst he
          by_contra hc
          simp only [Bool.not_eq_false] at hc
          simp [hc] at h
      | succ k =>
          simp only [List.getElem?_cons_succ] at he
          exact ih (by omega) k e he

theorem countRunning_of_idle (l : List Entry)
    (h : ∀ (j : Nat) (e : Entry), l[j]? = some e → e.t.caller = none) : countRunning l = 0 := by
  induction l with
  | nil => rfl
  | cons x xs ih =>
      simp only [countRunning]
      have hx : running x.t = false := (running_of_none x.t (h 0 x (by simp))).1
      have hxs := ih (fun j e he => h (j + 1) e (by simpa using he))
      simp [hx, hxs]

theorem keys_set (l : List Entry) (i : Nat) (e : Entry) (t1 : Threads)
    (he : l[i]? = some e) :
    (l.set i { e with t := t1 }).map Entry.key = l.map Entry.key := by
  induction l generalizing i with
  | nil => simp
  | cons x xs ih =>
      cases i with
      | zero =>
          simp only [List.getElem?_cons_zero, Option.some.injEq] at he
          subst he
          simp
      | succ k =>
          simp only [List.getElem?_cons_succ] at he
          simp [ih k he]

theorem keys_ne_of_nodup (l : List Entry) (hnd : (l.map Entry.key).Nodup) (i j : Nat)
    (e e2 : Entry) (he : l[i]? = some e) (he2 : l[j]? = some e2) (hij : j ≠ i) :
    e2.key ≠ e.key := by
  intro hk
  have h1 : (l.map Entry.key)[i]? = some e.key := by simp [he]
  have h2 : (l.map Entry.key)[j]? = some e2.key := by simp [he2]
  have hi : i < (l.map Entry.key).length := by
    rcases List.getElem?_eq_some_iff.mp h1 with ⟨h, _⟩; exact h
  have hj : j < (l.map Entry.key).length := by
    rcases List.getElem?_eq_some_iff.mp h2 with ⟨h, _⟩; exact h
  have e1 : (l.map Entry.key)[i] = e.key := by
    rcases List.getElem?_eq_some_iff.mp h1 with ⟨_, h⟩; exact h
  have e2' : (l.map Entry.key)[j] = e2.key := by
    rcases List.getElem?_eq_some_iff.mp h2 with ⟨_, h⟩; exact h
  have hinj : (l.map Entry.key)[i] = (l.map Entry.key)[j] ↔ i = j :=
    @List.Nodup.getElem_inj_iff _ _ hnd i hi j hj
  exact hij (hinj.mp (by rw [e1, e2', hk])).symm

theorem Inv_update_same (ks : List String) (s : System) (i : Nat) (e : Entry) (t1 : Threads)
    (m : Bool) (hI : Inv ks s) (he : s.entries[i]? = some e)
    (hr : t1 ∈ Entry.reachable e.resolved)
    (hsome : t1.caller.isSome = e.t.caller.isSome)
    (hrun : running t1 = running e.t) (hdel : pastDelete t1 = pastDelete e.t) :
    Inv ks { (s.setThreads i e t1) with mutex := m } := by
  have hget : ∀ (j : Nat) (e2 : Entry), (s.entries.set i { e with t := t1 })[j]? = some e2 →
      (j = i ∧ e2 = { e with t := t1 }) ∨ (j ≠ i ∧ s.entries[j]? = some e2) :=
    fun j e2 h => set_get_cases s.entries i j e _ e2 he h
  refine { keys := ?_, reach := ?_, count := ?_, del := ?_, pre := ?_, noAgg := hI.noAgg,
           post := ?_, waited := hI.waited, posted := hI.posted }
  · show (s.entries.set i { e with t := t1 }).map Entry.key = ks
    rw [keys_set _ _ _ _ he]
    exact hI.keys
  · intro j e2 h2
    rcases hget j e2 h2 with ⟨_, rfl⟩ | ⟨_, h3⟩
    · exact hr
    · exact hI.reach j e2 h3
  · have h1 := countRunning_set s.entries i e { e with t := t1 } he
    have h0 := hI.count
    show s.wg = countRunning (s.entries.set i { e with t := t1 }) + _
    simp only [hrun] at h1
    have : countRunning (s.entries.set i { e with t := t1 }) = countRunning s.entries := by omega
    rw [this]
    exact h0
  · intro j e2 h2
    rcases hget j e2 h2 with ⟨_, rfl⟩ | ⟨_, h3⟩
    · show pastDelete t1 = true ↔ _
      rw [hdel]
      exact hI.del i e he
    · exact hI.del j e2 h3
  · intro hc j e2 h2
    rcases hget j e2 h2 with ⟨_, rfl⟩ | ⟨_, h3⟩
    · have h0 := hI.pre hc i e he
      show t1.caller = none
      rw [h0] at hsome
      simpa using hsome
    · exact hI.pre hc j e2 h3
  · intro hc j e2 h2
    rcases hget j e2 h2 with ⟨_, rfl⟩ | ⟨_, h3⟩
    · have h0 := hI.post hc i e he
      show t1.caller ≠ none
      intro hn
      rw [hn] at hsome
      cases hx : e.t.caller with
      | none => exact h0 hx
      | some v => simp [hx] at hsome
    · exact hI.post hc j e2 h3

theorem Inv_delete (ks : List String) (hnd : ks.Nodup) (s : System) (i : Nat) (e : Entry)
    (t1 : Threads) (hI : Inv ks s) (he : s.entries[i]? = some e)
    (hr : t1 ∈ Entry.reachable e.resolved)
    (hsome : t1.caller.isSome = e.t.caller.isSome)
    (hrun : running t1 = running e.t) (hdel : pastDelete t1 = true) :
    Inv ks { (s.setThreads i e t1) with
             informers := { informers := s.informers.informers.erase e.key } } := by
  have hget : ∀ (j : Nat) (e2 : Entry), (s.entries.set i { e with t := t1 })[j]? = some e2 →
      (j = i ∧ e2 = { e with t := t1 }) ∨ (j ≠ i ∧ s.entries[j]? = some e2) :=
    fun j e2 h => set_get_cases s.entries i j e _ e2 he h
  have hbase := Inv_update_same ks s i e t1 s.mutex hI he hr hsome hrun
  refine { keys := ?_, reach := ?_, count := ?_, del := ?_, pre := ?_, noAgg := hI.noAgg,
           post := ?_, waited := hI.waited, posted := hI.posted }
  · show (s.entries.set i { e with t := t1 }).map Entry.key = ks
    rw [keys_set _ _ _ _ he]
    exact hI.keys
  · intro j e2 h2
    rcases hget j e2 h2 with ⟨_, rfl⟩ | ⟨_, h3⟩
    · exact hr
    · exact hI.reach j e2 h3
  · have h1 := countRunning_set s.entries i e { e with t := t1 } he
    have h0 := hI.count
    show s.wg = countRunning (s.entries.set i { e with t := t1 }) + _
    simp only [hrun] at h1
    have : countRunning (s.entries.set i { e with t := t1 }) = countRunning s.entries := by omega
    rw [this]
    exact h0
  · intro j e2 h2
    rcases hget j e2 h2 with ⟨_, rfl⟩ | ⟨hji, h3⟩
    · show pastDelete t1 = true ↔ Exists { informers := s.informers.informers.erase e.key } e.key = false
      rw [Exists_eq_false_iff]
      simp [hdel, AList.lookup_erase]
    · have hne : e2.key ≠ e.key :=
        keys_ne_of_nodup s.entries (by rw [hI.keys]; exact hnd) i j e e2 he h3 hji
      show pastDelete e2.t = true ↔
        Exists { informers := s.informers.informers.erase e.key } e2.key = false
      rw [Exists_eq_false_iff]
      show _ ↔ AList.lookup e2.key (s.informers.informers.erase e.key) = none
      rw [AList.lookup_erase_ne hne, ← Exists_eq_false_iff]
      exact hI.del j e2 h3
  · intro hc j e2 h2
    rcases hget j e2 h2 with ⟨_, rfl⟩ | ⟨_, h3⟩
    · have h0 := hI.pre hc i e he
      show t1.caller = none
      rw [h0] at hsome
      simpa using hsome
    · exact hI.pre hc j e2 h3
  · intro hc j e2 h2
    rcases hget j e2 h2 with ⟨_, rfl⟩ | ⟨_, h3⟩
    · have h0 := hI.post hc i e he
      show t1.caller ≠ none
      intro hn
      rw [hn] at hsome
      cases hx : e.t.caller with
      | none => exact h0 hx
      | some v => simp [hx] at hsome
    · exact hI.post hc j e2 h3

theorem Inv_wgDone (ks : List String) (s : System) (i : Nat) (e : Entry)
    (t1 : Threads) (hI : Inv ks s) (he : s.entries[i]? = some e)
    (hr : t1 ∈ Entry.reachable e.resolved)
    (hsome : t1.caller.isSome = e.t.caller.isSome)
    (hrun0 : running e.t = true) (hrun1 : running t1 = false)
    (hdel : pastDelete t1 = pastDelete e.t) (hwg : s.wg ≠ 0) :
    Inv ks { (s.setThreads i e t1) with wg := s.wg - 1 } := by
  have hget : ∀ (j : Nat) (e2 : Entry), (s.entries.set i { e with t := t1 })[j]? = some e2 →
      (j = i ∧ e2 = { e with t := t1 }) ∨ (j ≠ i ∧ s.entries[j]? = some e2) :=
    fun j e2 h => set_get_cases s.entries i j e _ e2 he h
  refine { keys := ?_, reach := ?_, count := ?_, del := ?_, pre := ?_, noAgg := hI.noAgg,
           post := ?_, waited := ?_, posted := hI.posted }
  · show (s.entries.set i { e with t := t1 }).map Entry.key = ks
    rw [keys_set _ _ _ _ he]
    exact hI.keys
  · intro j e2 h2
    rcases hget j e2 h2 with ⟨_, rfl⟩ | ⟨_, h3⟩
    · exact hr
    · exact hI.reach j e2 h3
  · have h1 := countRunning_set s.entries i e { e with t := t1 } he
    have h0 := hI.count
    show s.wg - 1 = countRunning (s.entries.set i { e with t := t1 }) +
      (match s.caller with | CallerPc.go _ => 1 | _ => 0)
    simp only [hrun0, hrun1, if_true] at h1
    generalize (match s.caller with | CallerPc.go _ => 1 | _ => 0) = adj at h0 ⊢
    simp at h1
    omega
  · intro j e2 h2
    rcases hget j e2 h2 with ⟨_, rfl⟩ | ⟨_, h3⟩
    · show pastDelete t1 = true ↔ _
      rw [hdel]
      exact hI.del i e he
    · exact hI.del j e2 h3
  · intro hc j e2 h2
    rcases hget j e2 h2 with ⟨_, rfl⟩ | ⟨_, h3⟩
    · have h0 := hI.pre hc i e he
      show t1.caller = none
      rw [h0] at hsome
      simpa using hsome
    · exact hI.pre hc j e2 h3
  · intro hc j e2 h2
    rcases hget j e2 h2 with ⟨_, rfl⟩ | ⟨_, h3⟩
    · have h0 := hI.post hc i e he
      show t1.caller ≠ none
      intro hn
      rw [hn] at hsome
      cases hx : e.t.caller with
      | none => exact h0 hx
      | some v => simp [hx] at hsome
    · exact hI.post hc j e2 h3
  · intro hc
    exact absurd (hI.waited hc) hwg

theorem Inv_go (ks : List String) (s : System) (i : Nat) (e : Entry) (t1 : Threads)
    (hI : Inv ks s) (he : s.entries[i]? = some e) (hc : s.caller = CallerPc.go i)
    (hr : t1 ∈ Entry.reachable e.resolved)
    (hrun0 : running e.t = false) (hrun1 : running t1 = true)
    (hdel : pastDelete t1 = pastDelete e.t) :
    Inv ks { (s.setThreads i e t1) with caller := CallerPc.range } := by
  have hget : ∀ (j : Nat) (e2 : Entry), (s.entries.set i { e with t := t1 })[j]? = some e2 →
      (j = i ∧ e2 = { e with t := t1 }) ∨ (j ≠ i ∧ s.entries[j]? = some e2) :=
    fun j e2 h => set_get_cases s.entries i j e _ e2 he h
  have hagg : s.aggregator = none := by
    by_contra hne
    rcases hI.noAgg hne with h | h | h <;> rw [hc] at h <;> cases h
  refine { keys := ?_, reach := ?_, count := ?_, del := ?_, pre := ?_, noAgg := ?_,
           post := ?_, waited := hI.waited, posted := ?_ }
  · show (s.entries.set i { e with t := t1 }).map Entry.key = ks
    rw [keys_set _ _ _ _ he]
    exact hI.keys
  · intro j e2 h2
    rcases hget j e2 h2 with ⟨_, rfl⟩ | ⟨_, h3⟩
    · exact hr
    · exact hI.reach j e2 h3
  · have h1 := countRunning_set s.entries i e { e with t := t1 } he
    have h0 := hI.count
    rw [hc] at h0
    show s.wg = countRunning (s.entries.set i { e with t := t1 }) + 0
    simp only [hrun0, hrun1, if_true] at h1
    simp at h1 h0
    omega
  · intro j e2 h2
    rcases hget j e2 h2 with ⟨_, rfl⟩ | ⟨_, h3⟩
    · show pastDelete t1 = true ↔ _
      rw [hdel]
      exact hI.del i e he
    · exact hI.del j e2 h3
  · intro h
    rcases h with h | h <;> cases h
  · intro hne
    exact absurd hagg hne
  · intro h
    rcases h with h | h | h | h <;> cases h
  · intro h
    rcases h with h | h
    · cases h
    · exact hI.posted (Or.inr h)

theorem candidates_nil_started (s : System) (ks : List String) (hI : Inv ks s)
    (hn : s.candidates = []) :
    ∀ (i : Nat) (e : Entry), s.entries[i]? = some e → e.t.caller ≠ none := by
  intro i e he hnone
  have hi : i < s.entries.length := by
    rcases List.getElem?_eq_some_iff.mp he with ⟨h, _⟩; exact h
  have hex : Exists s.informers e.key = true := by
    have h1 := hI.del i e he
    have h2 := (running_of_none e.t hnone).2
    cases hx : Exists s.informers e.key with
    | true => rfl
    | false =>
        have := h1.mpr hx
        rw [h2] at this
        cases this
  have hmem : i ∈ s.candidates := by
    unfold System.candidates
    rw [List.mem_filter]
    refine ⟨List.mem_range.mpr hi, ?_⟩
    simp [he, hnone, hex]
  rw [hn] at hmem
  cases hmem

theorem Inv_step (ks : List String) (hnd : ks.Nodup) (s s1 : System) (a : Action)
    (hI : Inv ks s) (hs : s.step a = some s1) : Inv ks s1 := by
  cases a with
  | caller pick =>
      simp only [System.step] at hs
      cases hc : s.caller with
      | lock =>
          rw [hc] at hs
          simp only at hs
          split at hs
          · cases hs
          · cases hs
            exact
              { keys := hI.keys, reach := hI.reach
                count := by have := hI.count; rw [hc] at this; exact this
                del := hI.del
                pre := fun _ => hI.pre (Or.inl hc)
                noAgg := fun hne => by
                  rcases hI.noAgg hne with h | h | h <;> rw [hc] at h <;> cases h
                post := fun h => by rcases h with h | h | h | h <;> cases h
                waited := hI.waited
                posted := fun h => by
                  rcases h with h | h
                  · cases h
                  · exact hI.posted (Or.inr h) }
      | makeNotify =>
          rw [hc] at hs
          simp only at hs
          cases hs
          exact
            { keys := hI.keys, reach := hI.reach
              count := by
                show 0 = countRunning s.entries + 0
                rw [countRunning_of_idle s.entries (hI.pre (Or.inr hc))]
              del := hI.del
              pre := fun h => by rcases h with h | h <;> cases h
              noAgg := fun hne => by
                rcases hI.noAgg hne with h | h | h <;> rw [hc] at h <;> cases h
              post := fun h => by rcases h with h | h | h | h <;> cases h
              waited := fun _ => rfl
              posted := fun h => by
                rcases h with h | ⟨st, h1, h2⟩
                · cases h
                · simp only [Option.some.injEq] at h1
                  subst h1
                  simp at h2 }
      | range =>
          rw [hc] at hs
          simp only at hs
          have hagg : s.aggregator = none := by
            by_contra hne
            rcases hI.noAgg hne with h | h | h <;> rw [hc] at h <;> cases h
          split at hs
          · rename_i hcand
            cases hs
            exact
              { keys := hI.keys, reach := hI.reach
                count := by have := hI.count; rw [hc] at this; exact this
                del := hI.del
                pre := fun h => by rcases h with h | h <;> cases h
                noAgg := fun hne => absurd hagg hne
                post := fun _ => candidates_nil_started s ks hI hcand
                waited := hI.waited
                posted := fun h => by
                  rcases h with h | h
                  · cases h
                  · exact hI.posted (Or.inr h) }
          · cases hs
            exact
              { keys := hI.keys, reach := hI.reach
                count := by have := hI.count; rw [hc] at this; exact this
                del := hI.del
                pre := fun h => by rcases h with h | h <;> cases h
                noAgg := fun hne => absurd hagg hne
                post := fun h => by rcases h with h | h | h | h <;> cases h
                waited := hI.waited
                posted := fun h => by
                  rcases h with h | h
                  · cases h
                  · exact hI.posted (Or.inr h) }
      | add i =>
          rw [hc] at hs
          simp only at hs
          have hagg : s.aggregator = none := by
            by_contra hne
            rcases hI.noAgg hne with h | h | h <;> rw [hc] at h <;> cases h
          cases hs
          exact
            { keys := hI.keys, reach := hI.reach
              count := by
                have := hI.count
                rw [hc] at this
                show s.wg + 1 = countRunning s.entries + 1
                simp at this
                omega
              del := hI.del
              pre := fun h => by rcases h with h | h <;> cases h
              noAgg := fun hne => absurd hagg hne
              post := fun h => by rcases h with h | h | h | h <;> cases h
              waited := fun h => by
                rcases h with h | h <;> (rw [hagg] at h; cases h)
              posted := fun h => by
                rcases h with h | h
                · cases h
                · exact hI.posted (Or.inr h) }
      | go i =>
          rw [hc] at hs
          simp only at hs
          cases he : s.entries[i]? with
          | none => simp [he] at hs
          | some e =>
              rw [he] at hs
              simp only at hs
              split at hs
              · rename_i hidle
                cases hs
                obtain ⟨hst1, hst2, hst3⟩ :=
                  reachable_start_all e.resolved (mem_bools _) e.t (hI.reach i e he) hidle
                obtain ⟨hi1, hi2⟩ := running_of_none e.t hidle
                exact Inv_go ks s i e _ hI he hc hst1 hi1 hst2 (hst3.trans hi2.symm)
              · cases hs
      | goAggregator =>
          rw [hc] at hs
          simp only at hs
          have hagg : s.aggregator = none := by
            by_contra hne
            rcases hI.noAgg hne with h | h | h <;> rw [hc] at h <;> cases h
          cases hs
          exact
            { keys := hI.keys, reach := hI.reach
              count := by have := hI.count; rw [hc] at this; exact this
              del := hI.del
              pre := fun h => by rcases h with h | h <;> cases h
              noAgg := fun _ => Or.inl rfl
              post := fun _ => hI.post (Or.inl hc)
              waited := fun h => by rcases h with h | h <;> cases h
              posted := fun h => by
                rcases h with h | h
                · cases h
                · have := hI.posted (Or.inr h)
                  rw [hagg] at this
                  cases this }
      | unlock =>
          rw [hc] at hs
          simp only at hs
          cases hs
          exact
            { keys := hI.keys, reach := hI.reach
              count := by have := hI.count; rw [hc] at this; exact this
              del := hI.del
              pre := fun h => by rcases h with h | h <;> cases h
              noAgg := fun _ => Or.inr (Or.inl rfl)
              post := fun _ => hI.post (Or.inr (Or.inl hc))
              waited := hI.waited
              posted := fun h => by
                rcases h with h | h
                · cases h
                · exact hI.posted (Or.inr h) }
      | recvNotify =>
          rw [hc] at hs
          simp only at hs
          cases hn : s.notify with
          | none => simp [hn] at hs
          | some st =>
              rw [hn] at hs
              simp only at hs
              split at hs
              · rename_i hlen
                cases hs
                exact
                  { keys := hI.keys, reach := hI.reach
                    count := by have := hI.count; rw [hc] at this; exact this
                    del := hI.del
                    pre := fun h => by rcases h with h | h <;> cases h
                    noAgg := fun _ => Or.inr (Or.inr rfl)
                    post := fun _ => hI.post (Or.inr (Or.inr (Or.inl hc)))
                    waited := hI.waited
                    posted := fun _ => hI.posted (Or.inr ⟨st, hn, hlen⟩) }
              · cases hs
      | received =>
          rw [hc] at hs
          simp at hs
  | entry i a =>
      simp only [System.step] at hs
      cases he : s.entries[i]? with
      | none => simp [he] at hs
      | some e =>
          rw [he] at hs
          simp only [Option.map_eq_some'] at hs
          obtain ⟨t1, hst, rfl⟩ := hs
          obtain ⟨h1, h2, h3, h4⟩ := reachable_step e.resolved e.t t1 a (hI.reach i e he) hst
          exact Inv_update_same ks s i e t1 s.mutex hI he h1 h2 h3 h4
  | entryStmt i =>
      simp only [System.step] at hs
      cases he : s.entries[i]? with
      | none => simp [he] at hs
      | some e =>
          rw [he] at hs
          simp only at hs
          cases hst : e.t.stmt with
          | none => simp [hst] at hs
          | some x =>
              obtain ⟨ins, t1⟩ := x
              rw [hst] at hs
              obtain ⟨h1, h2, h3, h4, h5, h6, h7⟩ :=
                reachable_stmt e.resolved e.t t1 ins (hI.reach i e he) hst
              have hsome : t1.caller.isSome = e.t.caller.isSome := by rw [h2, h3]
              cases ins with
              | op o => simp at hs
              | lock =>
                  simp only at hs
                  split at hs
                  · cases hs
                  · cases hs
                    exact Inv_update_same ks s i e t1 true hI he h1 hsome
                      (by rw [h5, h4]; rfl) (by rw [h6]; simp)
              | unlock =>
                  simp only at hs
                  cases hs
                  exact Inv_update_same ks s i e t1 false hI he h1 hsome
                    (by rw [h5, h4]; rfl) (by rw [h6]; simp)
              | delete =>
                  simp only at hs
                  cases hs
                  exact Inv_delete ks hnd s i e t1 hI he h1 hsome
                    (by rw [h5, h4]; rfl) (by rw [h6]; simp)
              | wgDone =>
                  simp only at hs
                  split at hs
                  · cases hs
                  · rename_i hwg
                    cases hs
                    exact Inv_wgDone ks s i e t1 hI he h1 hsome h4
                      (by rw [h5]; rfl) (by rw [h6]; simp) hwg
  | aggregator =>
      simp only [System.step] at hs
      cases hagg : s.aggregator with
      | none => simp [hagg] at hs
      | some pc =>
          rw [hagg] at hs
          have hcall := hI.noAgg (by rw [hagg]; simp)
          cases pc with
          | wait =>
              simp only at hs
              split at hs
              · rename_i hwg
                cases hs
                exact
                  { keys := hI.keys, reach := hI.reach, count := hI.count, del := hI.del
                    pre := hI.pre
                    noAgg := fun _ => hcall
                    post := hI.post
                    waited := fun _ => hwg
                    posted := fun h => by
                      have := hI.posted h
                      rw [hagg] at this
                      cases this }
              · cases hs
          | send =>
              simp only at hs
              cases hn : s.notify with
              | none => simp [hn] at hs
              | some st =>
                  rw [hn] at hs
                  simp only at hs
                  split at hs
                  · cases hs
                    exact
                      { keys := hI.keys, reach := hI.reach, count := hI.count, del := hI.del
                        pre := hI.pre
                        noAgg := fun _ => hcall
                        post := hI.post
                        waited := fun _ => hI.waited (Or.inl hagg)
                        posted := fun _ => rfl }
                  · cases hs
          | finished => simp at hs
  | notifySync =>
      simp only [System.step] at hs
      split at hs
      · rename_i st hagg hc hn
        split at hs
        · cases hs
          exact
            { keys := hI.keys, reach := hI.reach
              count := by have := hI.count; rw [hc] at this; exact this
              del := hI.del
              pre := fun h => by rcases h with h | h <;> cases h
              noAgg := fun _ => Or.inr (Or.inr rfl)
              post := fun _ => hI.post (Or.inr (Or.inr (Or.inl hc)))
              waited := fun _ => hI.waited (Or.inl hagg)
              posted := fun _ => rfl }
        · cases hs
      · cases hs

theorem world_caller (r : Bool) : (Entry.world r).2.2.caller = none := by
  cases r <;> rfl

theorem world_reachable (r : Bool) : (Entry.world r).2.2 ∈ Entry.reachable r := by
  simp [Entry.reachable]

theorem Inv_init (g : genericStopInformerMap) (h : Heap) (buffer : Nat) :
    Inv g.informers.keys (System.init g h buffer) := by
  have hent : ∀ (i : Nat) (e : Entry), (System.init g h buffer).entries[i]? = some e →
      ∃ x ∈ g.informers.entries,
        e = { key := x.1
              resolved := (h.objs x.2).resolveImmediately
              t := (Entry.world (h.objs x.2).resolveImmediately).2.2 } := by
    intro i e he
    simp only [System.init, List.getElem?_map, Option.map_eq_some'] at he
    obtain ⟨x, hx, rfl⟩ := he
    exact ⟨x, List.mem_iff_getElem?.mpr ⟨i, hx⟩, rfl⟩
  have hidle : ∀ (i : Nat) (e : Entry), (System.init g h buffer).entries[i]? = some e →
      e.t.caller = none := by
    intro i e he
    obtain ⟨x, _, rfl⟩ := hent i e he
    exact world_caller _
  exact
    { keys := by
        simp [System.init, AList.keys, List.keys, Function.comp_def]
      reach := by
        intro i e he
        obtain ⟨x, _, rfl⟩ := hent i e he
        exact world_reachable _
      count := by
        show 0 = countRunning (System.init g h buffer).entries + 0
        rw [countRunning_of_idle _ hidle]
      del := by
        intro i e he
        have h1 := (running_of_none e.t (hidle i e he)).2
        obtain ⟨x, hx, rfl⟩ := hent i e he
        have hl : g.informers.lookup x.1 = some x.2 := by
          have : x.2 ∈ g.informers.lookup x.1 := AList.mem_lookup_iff.mpr (by cases x; exact hx)
          exact this
        have hex : Exists g x.1 = true := by simp [Exists, hl]
        show _ ↔ Exists g x.1 = false
        rw [h1, hex]
        simp
      pre := fun _ => hidle
      noAgg := fun hne => absurd rfl hne
      post := fun hc => by rcases hc with hc | hc | hc | hc <;> cases hc
      waited := fun hc => by rcases hc with hc | hc <;> cases hc
      posted := fun hc => by
        rcases hc with hc | ⟨st, h1, _⟩
        · cases hc
        · cases h1 }

theorem Inv_run (ks : List String) (hnd : ks.Nodup) (acts : List Action) :
    ∀ (s s1 : System), Inv ks s → s.run acts = some s1 → Inv ks s1 := by
  induction acts with
  | nil =>
      intro s s1 hI hr
      simp only [System.run, Option.some.injEq] at hr
      subst hr
      exact hI
  | cons a rest ih =>
      intro s s1 hI hr
      simp only [System.run] at hr
      cases hst : s.step a with
      | none => simp [hst] at hr
      | some s2 =>
          rw [hst] at hr
          exact ih s2 s1 (Inv_step ks hnd s s2 a hI hst) hr

/-- C9: `StopAllAndNotify(buffer)` is called on a map whose entries have their
own signals, each with its relay and a watching worker.  In every execution
(every schedule `acts` of enabled steps): when the aggregator has passed
`wg.Wait()`, and so whenever the value has been posted, every entry's worker
has completed its `Acknowledge`, every entry's goroutine has returned and every
key has been deleted; hence `Exists(name)` is false for every name present at
the call; and the caller has received the value, or the channel holds it, only
if the aggregator has posted it. -/
theorem StopAllAndNotify_joins (g : genericStopInformerMap) (h : Heap) (buffer : Nat)
    (acts : List Action) (s : System)
    (hr : (System.init g h buffer).run acts = some s) :
    s.entries.map Entry.key = g.informers.keys ∧
    ((s.aggregator = some AggPc.send ∨ s.aggregator = some AggPc.finished) →
      (∀ e ∈ s.entries, e.t.worker = Worker.acknowledging [] ∧ e.t.caller = some [] ∧
        Exists s.informers e.key = false) ∧
      (∀ name, Exists g name = true → Exists s.informers name = false)) ∧
    ((s.caller = CallerPc.received ∨ ∃ st, s.notify = some st ∧ 0 < st.len) →
      s.aggregator = some AggPc.finished) := by
  have hI : Inv g.informers.keys s :=
    Inv_run _ g.informers.keys_nodup acts _ s (Inv_init g h buffer) hr
  have hall : (s.aggregator = some AggPc.send ∨ s.aggregator = some AggPc.finished) →
      ∀ e ∈ s.entries, e.t.worker = Worker.acknowledging [] ∧ e.t.caller = some [] ∧
        Exists s.informers e.key = false := by
    intro hagg e hmem
    obtain ⟨j, hj⟩ := List.mem_iff_getElem?.mp hmem
    have hwg := hI.waited hagg
    have hcall := hI.noAgg (by rcases hagg with h1 | h1 <;> rw [h1] <;> simp)
    have hstarted : e.t.caller ≠ none :=
      hI.post (by rcases hcall with h1 | h1 | h1 <;> simp [h1]) j e hj
    have hcount : countRunning s.entries = 0 := by
      have := hI.count
      rw [hwg] at this
      omega
    have hrun := countRunning_eq_zero s.entries hcount j e hj
    have hdone : e.t.caller = some [] := by
      cases hx : e.t.caller with
      | none => exact absurd hx hstarted
      | some v =>
          simp only [running, hx, Option.isSome_some, Bool.true_and] at hrun
          simpa using hrun
    obtain ⟨hw, hd, _⟩ :=
      reachable_final_all e.resolved (mem_bools _) e.t (hI.reach j e hj) hdone
    exact ⟨hw, hdone, (hI.del j e hj).mp hd⟩
  refine ⟨hI.keys, fun hagg => ⟨hall hagg, ?_⟩, hI.posted⟩
  intro name hname
  have hmem : name ∈ g.informers.keys := by
    rw [← AList.mem_keys, ← AList.lookup_isSome]
    obtain ⟨i, hi⟩ := (Exists_eq_true_iff g name).mp hname
    simp [hi]
  rw [← hI.keys] at hmem
  obtain ⟨e, he, rfl⟩ := List.mem_map.mp hmem
  exact (hall hagg e he).2.2

theorem StopAllAndNotify_joins_witness :
    ∃ s, (System.init scenarioMap scenarioHeap 0).run scenarioSchedule = some s ∧
      s.caller = CallerPc.received ∧
      Exists scenarioMap "a" = true ∧ Exists scenarioMap "b" = true ∧
      Exists s.informers "a" = false ∧ Exists s.informers "b" = false := by
  have hrun : ((System.init scenarioMap scenarioHeap 0).run scenarioSchedule).map
      (fun s => s.caller) = some CallerPc.received := by decide
  cases hs : (System.init scenarioMap scenarioHeap 0).run scenarioSchedule with
  | none => rw [hs] at hrun; cases hrun
  | some s =>
      rw [hs] at hrun
      have hc : s.caller = CallerPc.received := by simpa using hrun
      have hj := StopAllAndNotify_joins scenarioMap scenarioHeap 0 scenarioSchedule s hs
      have hagg := hj.2.2 (Or.inl hc)
      have hex := (hj.2.1 (Or.inr hagg)).2
      exact ⟨s, rfl, hc, by decide, by decide, hex "a" (by decide), hex "b" (by decide)⟩

end stopinformermap
